import Mathlib

/-!
Verification of the tiled reprojection graph builder of `odc.algo._warp`
(functions `_reproject_block_impl`, `dask_reproject`, `xr_reproject_array`).

The embedding is shallow:

* numpy arrays become `NDArr` (a shape together with an index-to-value map);
* dask arrays become `DaskArray` (a graph name, per-axis chunk lists, a dtype
  tag and the materialised content as a global index-to-value map);
* the dask task dictionary becomes an association list from keys
  `(graph-name, block-index)` to `Task` descriptions, and the returned
  `da.Array` becomes `ReprojResult` (graph, name, chunks, dtype, shape,
  dependency list);
* `assert` statements become the `Except.error` branch of the builder;
* geometry (`GeoBox`, extents, tiling) is modelled for axis-aligned grids
  with rational resolutions and origins; the external single-tile
  resampling primitive `rio_reproject` is modelled as nearest-neighbour
  pixel-centre lookup, and `compute_reproject_roi` as the clipped
  floor/ceil pixel window of the destination tile's extent in source
  pixel coordinates.

Helpers imported by `_warp.py` from the repository's `_dask` module
(`unpack_chunksize`, `crop_2d_dense`, `empty_maker`, `randomize`) are not
part of the provided sources; they are modelled from the specification and
are marked as such in their doc comments.
-/

set_option maxHeartbeats 1000000

namespace Warp

/-- Row-major enumeration of all index tuples of a given shape,
modelling `np.ndindex`. -/
def ndindex : List Nat → List (List Nat)
  | [] => [[]]
  | n :: rest => (List.range n).flatMap fun i => (ndindex rest).map (i :: ·)

theorem mem_ndindex {s : List Nat} {ix : List Nat} :
    ix ∈ ndindex s ↔ List.Forall₂ (· < ·) ix s := by
  induction s generalizing ix with
  | nil =>
    simp only [ndindex, List.mem_singleton]
    constructor
    · rintro rfl; exact List.Forall₂.nil
    · intro h; cases h; rfl
  | cons n rest ih =>
    simp only [ndindex, List.mem_flatMap, List.mem_map, List.mem_range]
    constructor
    · rintro ⟨i, hi, t, ht, rfl⟩
      exact List.Forall₂.cons hi (ih.mp ht)
    · intro h
      cases h with
      | cons hi ht => exact ⟨_, hi, _, ih.mpr ht, rfl⟩

theorem ndindex_nodup (s : List Nat) : (ndindex s).Nodup := by
  induction s with
  | nil => simp [ndindex]
  | cons n rest ih =>
    refine List.nodup_flatMap.mpr ⟨fun i _ => ih.map fun _ _ h => by injection h, ?_⟩
    refine (List.nodup_range n).pairwise_of_forall_ne ?_
    intro i _ j _ hne
    simp only [Function.onFun, List.Disjoint]
    rintro x hx hy
    rcases List.mem_map.mp hx with ⟨t, _, rfl⟩
    rcases List.mem_map.mp hy with ⟨u, _, h⟩
    exact hne (by injection h with h1 _; exact h1.symm)

theorem length_of_mem_ndindex {s ix : List Nat} (h : ix ∈ ndindex s) :
    ix.length = s.length :=
  (mem_ndindex.mp h).length_eq

/-- Locate a global coordinate inside a list of chunk sizes:
returns the block index and the offset within that block. -/
def locate : List Nat → Nat → Nat × Nat
  | [], g => (0, g)
  | c :: cs, g =>
    if g < c then (0, g)
    else
      let r := locate cs (g - c)
      (r.1 + 1, r.2)

theorem locate_spec {cs : List Nat} {g : Nat} (h : g < cs.sum) :
    (cs.take (locate cs g).1).sum + (locate cs g).2 = g ∧
    (locate cs g).2 < cs.getD (locate cs g).1 0 ∧
    (locate cs g).1 < cs.length := by
  induction cs generalizing g with
  | nil => simp at h
  | cons c cs ih =>
    by_cases hg : g < c
    · simp [locate, hg]
    · have h' : g - c < cs.sum := by
        simp only [List.sum_cons] at h; omega
      have := ih h'
      simp only [locate, if_neg hg]
      refine ⟨?_, this.2.1, by simpa using this.2.2⟩
      simp only [List.take_succ_cons, List.sum_cons]
      omega

/-- Per-axis block shape of the block at `idx`, i.e.
`tuple(ch[i] for ch, i in zip(chunks, idx))`. -/
def blockShape (chunks : List (List Nat)) (idx : List Nat) : List Nat :=
  List.zipWith (fun ch i => ch.getD i 0) chunks idx

/-- A closed rational interval. -/
structure Ival where
  lo : ℚ
  hi : ℚ
deriving DecidableEq, Repr

/-- Closed intervals intersect when neither lies strictly beyond the other. -/
def Ival.intersects (a b : Ival) : Bool :=
  a.lo ≤ b.hi ∧ b.lo ≤ a.hi

/-- An axis-aligned rectangle in world coordinates (y interval, x interval). -/
structure Rect where
  y : Ival
  x : Ival
deriving DecidableEq, Repr

def Rect.intersects (a b : Rect) : Bool :=
  a.y.intersects b.y && a.x.intersects b.x

/-- Model of `datacube.utils.geometry.GeoBox` for axis-aligned grids:
pixel shape `(ny, nx)`, per-pixel resolutions `(ry, rx)` (possibly
negative), world coordinates `(ty, tx)` of the corner of pixel `(0, 0)`,
and a CRS tag.  Pixel `(i, j)` spans world
`[ty + i*ry, ty + (i+1)*ry] x [tx + j*rx, tx + (j+1)*rx]`. -/
structure GeoBox where
  ny : Nat
  nx : Nat
  ry : ℚ
  rx : ℚ
  ty : ℚ
  tx : ℚ
  crs : Nat
deriving DecidableEq, Repr

/-- `GeoBox.shape` as the `(rows, cols)` list. -/
def GeoBox.shape (g : GeoBox) : List Nat := [g.ny, g.nx]

/-- Geographic footprint (`.extent`) of a GeoBox, as a world rectangle. -/
def GeoBox.extent (g : GeoBox) : Rect :=
  { y := ⟨min g.ty (g.ty + g.ny * g.ry), max g.ty (g.ty + g.ny * g.ry)⟩
    x := ⟨min g.tx (g.tx + g.nx * g.rx), max g.tx (g.tx + g.nx * g.rx)⟩ }

/-- A source-side pixel window (`rr.roi_src`): half-open row range
`[y0, y1)` and column range `[x0, x1)`. -/
@[ext]
structure Roi where
  y0 : Nat
  y1 : Nat
  x0 : Nat
  x1 : Nat
deriving DecidableEq, Repr

/-- `GeoBox` windowed by a pixel ROI (`src_geobox[rr.roi_src]`). -/
def GeoBox.sliceRoi (g : GeoBox) (r : Roi) : GeoBox :=
  { ny := r.y1 - r.y0
    nx := r.x1 - r.x0
    ry := g.ry
    rx := g.rx
    ty := g.ty + r.y0 * g.ry
    tx := g.tx + r.x0 * g.rx
    crs := g.crs }

/-- Modelled from the spec: `unpack_chunksize` from the repository's
`_dask` module is absent from the provided sources.  Following spec §4.1
step 1 ("partition the destination Grid into destination tiles of the
requested chunk size" and "row/col axes replaced by tile sizes") it
expands one requested chunk size `ch` over an axis of `n` pixels into the
full list of chunk sizes along that axis: full chunks of `ch` followed by
a final smaller chunk when `ch` does not divide `n` evenly. -/
def unpack_chunksize (ch n : Nat) : List Nat :=
  if n ≤ ch ∨ ch = 0 then [n]
  else ch :: unpack_chunksize ch (n - ch)
termination_by n
decreasing_by omega

@[simp] theorem unpack_chunksize_sum (ch n : Nat) :
    (unpack_chunksize ch n).sum = n := by
  induction n using Nat.strong_induction_on with
  | _ n ih =>
    rw [unpack_chunksize]
    by_cases h : n ≤ ch ∨ ch = 0
    · simp [h]
    · rw [if_neg h]
      push_neg at h
      simp only [List.sum_cons, ih (n - ch) (by omega)]
      omega

theorem unpack_chunksize_pos (ch n : Nat) {c : Nat}
    (hc : c ∈ unpack_chunksize ch n) (hn : 0 < n) : 0 < c := by
  induction n using Nat.strong_induction_on with
  | _ n ih =>
    rw [unpack_chunksize] at hc
    by_cases h : n ≤ ch ∨ ch = 0
    · rw [if_pos h] at hc; simp at hc; omega
    · rw [if_neg h] at hc
      push_neg at h
      rcases List.mem_cons.mp hc with rfl | hc
      · omega
      · exact ih (n - ch) (by omega) hc (by omega)

/-- Model of `datacube.utils.geometry.gbox.GeoboxTiles`: the partition of
a GeoBox into tiles of a requested `(rows, cols)` chunk size. -/
structure GeoboxTiles where
  base : GeoBox
  chy : List Nat
  chx : List Nat
deriving Repr

/-- `GeoboxTiles(gbox, chunks)`. -/
def mkGeoboxTiles (g : GeoBox) (cy cx : Nat) : GeoboxTiles :=
  { base := g, chy := unpack_chunksize cy g.ny, chx := unpack_chunksize cx g.nx }

/-- `gbt[idx]`: the GeoBox of tile `(r, c)`. -/
def GeoboxTiles.tileBox (t : GeoboxTiles) (r c : Nat) : GeoBox :=
  t.base.sliceRoi
    { y0 := (t.chy.take r).sum
      y1 := (t.chy.take r).sum + t.chy.getD r 0
      x0 := (t.chx.take c).sum
      x1 := (t.chx.take c).sum + t.chx.getD c 0 }

/-- `gbt.tiles(footprint)`: indices of the tiles whose extent intersects
the footprint, modelling the external tile-grid abstraction of spec §6
("given a geographic footprint, return the set of tile indices whose
extent intersects it"). -/
def GeoboxTiles.tiles (t : GeoboxTiles) (footprint : Rect) : List (Nat × Nat) :=
  (List.range t.chy.length).flatMap fun r =>
    (List.range t.chx.length).filterMap fun c =>
      if (t.tileBox r c).extent.intersects footprint then some (r, c) else none

/-- Clip an integer pixel coordinate to `[0, n]`. -/
def clipPix (n : Nat) (z : ℤ) : Nat := min n z.toNat

/-- Result of `compute_reproject_roi` (only the `roi_src` field is used
by `dask_reproject`). -/
structure ReprojectInfo where
  roi_src : Roi
deriving DecidableEq, Repr

/-- Model of the external `datacube.utils.geometry.compute_reproject_roi`
(spec §6: "compute, for a given source/destination tile pair, the minimal
read/write windows (region of interest) needed for resampling"): the
destination tile's extent is mapped into source pixel coordinates and the
covering floor/ceil pixel window, clipped to the source shape, is
returned. -/
def compute_reproject_roi (src dst : GeoBox) : ReprojectInfo :=
  let e := dst.extent
  let ay := (e.y.lo - src.ty) / src.ry
  let by' := (e.y.hi - src.ty) / src.ry
  let ax := (e.x.lo - src.tx) / src.rx
  let bx := (e.x.hi - src.tx) / src.rx
  { roi_src :=
      { y0 := clipPix src.ny ⌊min ay by'⌋
        y1 := clipPix src.ny ⌈max ay by'⌉
        x0 := clipPix src.nx ⌊min ax bx⌋
        x1 := clipPix src.nx ⌈max ax bx⌉ } }

/-- An n-dimensional numpy array: a shape and an index-to-value map
(indices outside the shape are junk and never relied upon). -/
structure NDArr where
  shape : List Nat
  get : List Nat → ℤ

/-- `a[p]` for a tuple `p` of leading indices. -/
def NDArr.slice (a : NDArr) (p : List Nat) : NDArr :=
  ⟨a.shape.drop p.length, fun q => a.get (p ++ q)⟩

/-- `dst[p] = b` for a tuple `p` of leading indices: functional model of
the in-place numpy slice assignment. -/
def NDArr.writeSlice (a : NDArr) (p : List Nat) (b : NDArr) : NDArr :=
  ⟨a.shape, fun ix => if ix.take p.length = p then b.get (ix.drop p.length) else a.get ix⟩

/-- `np.empty(shape, dtype)`: the contents of a freshly allocated buffer
are unspecified; the model fixes them to `0`, and no theorem relies on
that choice for unwritten cells. -/
def npEmpty (shape : List Nat) : NDArr := ⟨shape, fun _ => 0⟩

/-- Nearest-neighbour value of destination pixel `(i, j)`: the world
coordinates of the pixel centre are mapped into source pixel space; the
pixel containing them is read, and positions outside the source are the
destination nodata (or `0` when unset). -/
def nearestAt (src : NDArr) (sgb dgb : GeoBox) (dst_nodata : Option ℤ)
    (i j : Nat) : ℤ :=
  let wy : ℚ := dgb.ty + (i + 1/2) * dgb.ry
  let wx : ℚ := dgb.tx + (j + 1/2) * dgb.rx
  let si : ℤ := ⌊(wy - sgb.ty) / sgb.ry⌋
  let sj : ℤ := ⌊(wx - sgb.tx) / sgb.rx⌋
  if 0 ≤ si ∧ si < sgb.ny ∧ 0 ≤ sj ∧ sj < sgb.nx then
    src.get [si.toNat, sj.toNat]
  else dst_nodata.getD 0

/-- Model of the external single-tile resampling primitive
`datacube.utils.geometry.rio_reproject` (spec §6), for the `nearest`
family of strategies: a 2-D `(y, x)` source produces the destination
GeoBox's shape by nearest pixel-centre lookup; a 3-D `(band, y, x)`
source is resampled independently per leading band, which is the
documented rasterio behaviour for band-first stacks.  Other layouts are
rejected by the real primitive; the model returns an empty array for
them. -/
def rio_reproject (src : NDArr) (sgb dgb : GeoBox) (resampling : String)
    (src_nodata dst_nodata : Option ℤ) : NDArr :=
  match src.shape with
  | [_, _] =>
    ⟨[dgb.ny, dgb.nx], fun ix =>
      nearestAt src sgb dgb dst_nodata (ix.getD 0 0) (ix.getD 1 0)⟩
  | [b, _, _] =>
    ⟨[b, dgb.ny, dgb.nx], fun ix =>
      nearestAt (src.slice [ix.getD 0 0]) sgb dgb dst_nodata
        (ix.getD 1 0) (ix.getD 2 0)⟩
  | _ => ⟨[], fun _ => 0⟩

/-- `_warp._reproject_block_impl`: allocate the output buffer with the
row/col extent replaced by the destination GeoBox shape; reproject the
whole block when it is 2-D (or 3-D with the row axis at index 1, the
band-first layout the primitive handles natively), otherwise reproject
independently for every combination of leading-axis indices. -/
def _reproject_block_impl (src : NDArr) (src_geobox dst_geobox : GeoBox)
    (resampling : String) (src_nodata dst_nodata : Option ℤ)
    (axis : Nat) : NDArr :=
  let dst_shape :=
    src.shape.take axis ++ [dst_geobox.ny, dst_geobox.nx] ++ src.shape.drop (axis + 2)
  let dst := npEmpty dst_shape
  if dst_shape.length = 2 ∨ (dst_shape.length = 3 ∧ axis = 1) then
    rio_reproject src src_geobox dst_geobox resampling src_nodata dst_nodata
  else
    (ndindex (src.shape.take axis)).foldl
      (fun d p =>
        d.writeSlice p
          (rio_reproject (src.slice p) src_geobox dst_geobox resampling
            src_nodata dst_nodata))
      dst

/-- Dask graph names.  Real dask names are strings made globally unique
by tokenisation; the model keeps them as a structured type so that
distinct constructions provably get distinct names:
`str s k` is the output of `randomize s` with random token `k`,
`plain s` a pre-existing array name, and `crop base y0 y1 x0 x1` the
name of a cropped view of the array named `base`. -/
inductive GName where
  | str (s : String) (k : Nat)
  | plain (s : String)
  | crop (base : GName) (y0 y1 x0 x1 : Nat)
deriving DecidableEq, Repr

theorem GName.crop_ne_base (b : GName) (y0 y1 x0 x1 : Nat) :
    GName.crop b y0 y1 x0 x1 ≠ b := by
  intro h
  have := congrArg sizeOf h
  simp only [GName.crop.sizeOf_spec] at this
  omega

/-- Modelled from the spec: `randomize` from the repository's `_dask`
module is absent from the provided sources.  Its name and its use at
every graph-construction site (`name = randomize(name)`) indicate that
it salts the dask graph name with a freshly drawn random token so that
independent graphs never collide; the model passes the drawn token
explicitly. -/
def randomize (name : String) (token : Nat) : GName := GName.str name token

/-- A dask array: graph name, per-axis chunk lists, dtype tag, and the
materialised content as a map from global indices to values. -/
structure DaskArray where
  name : GName
  chunks : List (List Nat)
  dtype : String
  val : List Nat → ℤ

/-- `arr.shape`: per-axis sums of the chunk lists. -/
def DaskArray.shape (a : DaskArray) : List Nat := a.chunks.map List.sum

/-- `arr.chunksize`: the largest chunk along every axis. -/
def DaskArray.chunksize (a : DaskArray) : List Nat :=
  a.chunks.map (fun c => c.foldr max 0)

/-- The materialised block of `a` at block index `bidx`. -/
def DaskArray.getBlock (a : DaskArray) (bidx : List Nat) : NDArr :=
  ⟨blockShape a.chunks bidx,
   fun loc =>
     a.val (List.zipWith (fun (p : List Nat × Nat) l => (p.1.take p.2).sum + l)
       (a.chunks.zip bidx) loc)⟩

/-- Modelled from the spec: `crop_2d_dense` from the repository's `_dask`
module is absent from the provided sources.  Following spec §4.1 step 3b
("crop the source Chunked Array to the source-side window (a dense —
non-partitioned along the cropped axes — sub-array), producing a new
array whose row/col axes match exactly the cropped source region") it
windows the row/col axes at `axis` to the ROI, with a single chunk along
each cropped axis, leaving the other axes' chunking untouched. -/
def crop_2d_dense (src : DaskArray) (r : Roi) (axis : Nat) : DaskArray :=
  { name := GName.crop src.name r.y0 r.y1 r.x0 r.x1
    chunks :=
      src.chunks.take axis ++ [[r.y1 - r.y0], [r.x1 - r.x0]] ++ src.chunks.drop (axis + 2)
    dtype := src.dtype
    val := fun ix =>
      src.val (ix.take axis ++ [r.y0 + ix.getD axis 0, r.x0 + ix.getD (axis + 1) 0] ++
        ix.drop (axis + 2)) }

/-- One entry of the task dictionary `dsk`. -/
inductive Task where
  /-- The tuple
  `(_reproject_block_impl, (_src.name, *ii1, 0, 0), _src_geobox,
  _dst_geobox, resampling, src_nodata, dst_nodata, axis)`. -/
  | resample (srcName : GName) (srcKey : List Nat)
      (src_geobox dst_geobox : GeoBox) (resampling : String)
      (src_nodata dst_nodata : Option ℤ) (axis : Nat)
  /-- A constant-fill block task of the given shape and fill value.
  Modelled from the spec (the repository's `empty_maker` is absent from
  the provided sources): spec §4.1 step 4 registers "a constant-fill task
  producing a block of the correct pixel shape filled with the
  destination-nodata value (or 0 if destination-nodata is unset)". -/
  | fill (shape : List Nat) (value : ℤ)
deriving DecidableEq, Repr

def Task.isResample : Task → Bool
  | .resample .. => true
  | .fill .. => false

/-- A dask graph key: the graph name together with the block index. -/
abbrev GKey := GName × List Nat

/-- The value returned by `dask_reproject`: the assembled task graph, its
name, the destination chunking, dtype and shape, and the dependency list
(the source array followed by every per-tile cropped sub-array). -/
structure ReprojResult where
  dsk : List (GKey × Task)
  name : GName
  chunks : List (List Nat)
  dtype : String
  shape : List Nat
  deps : List DaskArray

/-- The `(rows, cols)` chunk-size request after applying the default
(`if chunks is None: chunks = src.chunksize[axis:axis+2]`). -/
def resolvedChunks (src : DaskArray) (chunks : Option (Nat × Nat))
    (axis : Nat) : List Nat :=
  match chunks with
  | none => (src.chunksize.drop axis).take 2
  | some (a, b) => [a, b]

/-- The body of `dask_reproject` after the two `assert` statements: the
graph construction of `_warp.py` lines 77–133 (destination chunking,
tile classification via footprint intersection, one resample task per
intersecting tile and prefix block, constant fill for every remaining
key). -/
def reprojectGraph (src : DaskArray) (src_geobox dst_geobox : GeoBox)
    (resampling : String) (chunksL : List Nat)
    (src_nodata dst_nodata : Option ℤ) (axis : Nat) (name : String)
    (token : Nat) : ReprojResult :=
  let yx_shape := [dst_geobox.ny, dst_geobox.nx]
  let yx_chunks := List.zipWith unpack_chunksize chunksL yx_shape
  let dst_chunks := src.chunks.take axis ++ yx_chunks ++ src.chunks.drop (axis + 2)
  let dst_shape := src.shape.take axis ++ yx_shape ++ src.shape.drop (axis + 2)
  let dims1 := (dst_chunks.take axis).map List.length
  let gbt := mkGeoboxTiles dst_geobox (chunksL.getD 0 0) (chunksL.getD 1 0)
  let xy_chunks_with_data := gbt.tiles src_geobox.extent
  let name' := randomize name token
  let firstPass :=
    xy_chunks_with_data.foldl
      (fun (acc : List DaskArray × List (GKey × Task)) idx =>
        let tileGb := gbt.tileBox idx.1 idx.2
        let rr := compute_reproject_roi src_geobox tileGb
        let srcCrop := crop_2d_dense src rr.roi_src axis
        let srcCropGb := src_geobox.sliceRoi rr.roi_src
        (acc.1 ++ [srcCrop],
         acc.2 ++ (ndindex dims1).map fun ii1 =>
           ((name', ii1 ++ [idx.1, idx.2]),
            Task.resample srcCrop.name (ii1 ++ [0, 0]) srcCropGb tileGb
              resampling src_nodata dst_nodata axis)))
      ([src], [])
  let fill_value := dst_nodata.getD 0
  let shape_in_blocks := dst_chunks.map List.length
  let dsk :=
    (ndindex shape_in_blocks).foldl
      (fun d idx =>
        let k : GKey := (name', idx)
        if d.any (fun e => e.1 = k) then d
        else d ++ [(k, Task.fill (blockShape dst_chunks idx) fill_value)])
      firstPass.2
  { dsk := dsk
    name := name'
    chunks := dst_chunks
    dtype := src.dtype
    shape := dst_shape
    deps := firstPass.1 }

/-- `_warp.dask_reproject`: resolve the chunk-size and nodata defaults,
check the two build-time preconditions
(`assert src.shape[axis:axis+2] == src_geobox.shape` and
`assert dims2 == ()`), and construct the task graph.  The random token
drawn by `randomize` is passed explicitly. -/
def dask_reproject (src : DaskArray) (src_geobox dst_geobox : GeoBox)
    (resampling : String) (chunks : Option (Nat × Nat))
    (src_nodata dst_nodata : Option ℤ) (axis : Nat) (name : String)
    (token : Nat) : Except String ReprojResult :=
  let chunksL := resolvedChunks src chunks axis
  let dst_nodata' := dst_nodata.orElse fun _ => src_nodata
  if (src.shape.drop axis).take 2 ≠ src_geobox.shape then
    .error "assert src.shape[axis:axis+2] == src_geobox.shape"
  else if src.chunks.drop (axis + 2) ≠ [] then
    .error "assert dims2 == ()"
  else
    .ok (reprojectGraph src src_geobox dst_geobox resampling chunksL
      src_nodata dst_nodata' axis name token)

/-! ### Graph evaluation

Execution of the assembled graph by the external lazy executor: a block
key resolves to its registered task, a resample task pulls its input
block from the named dependency array and runs
`_reproject_block_impl`, and a fill task materialises a constant
block. -/

def findDep (deps : List DaskArray) (n : GName) : Option DaskArray :=
  deps.find? fun a => a.name = n

def taskBlock (deps : List DaskArray) : Task → NDArr
  | .fill shape v => ⟨shape, fun _ => v⟩
  | .resample n key sgb dgb res sn dn ax =>
    match findDep deps n with
    | some a => _reproject_block_impl (a.getBlock key) sgb dgb res sn dn ax
    | none => ⟨[], fun _ => 0⟩

/-- The materialised output block at block index `idx`. -/
def ReprojResult.blockAt (r : ReprojResult) (idx : List Nat) : NDArr :=
  match r.dsk.find? (fun e => e.1 = (r.name, idx)) with
  | some e => taskBlock r.deps e.2
  | none => ⟨[], fun _ => 0⟩

/-- The materialised output value at a global index `g`: locate the
block along every axis and read the local offset inside it. -/
def ReprojResult.valAt (r : ReprojResult) (g : List Nat) : ℤ :=
  let bl := List.zipWith locate r.chunks g
  (r.blockAt (bl.map Prod.fst)).get (bl.map Prod.snd)

/-- Chunking-independent reference semantics of the whole reprojection
for the nearest primitive: the value of global destination pixel
`(…prefix, gi, gj)` is the source pixel containing the world centre of
`(gi, gj)`, or the destination nodata (`0` when unset) outside the
source. -/
def globalNearest (src : DaskArray) (sgb dgb : GeoBox)
    (dst_nodata : Option ℤ) (axis : Nat) (g : List Nat) : ℤ :=
  let gi := g.getD axis 0
  let gj := g.getD (axis + 1) 0
  let wy : ℚ := dgb.ty + (gi + 1/2) * dgb.ry
  let wx : ℚ := dgb.tx + (gj + 1/2) * dgb.rx
  let si : ℤ := ⌊(wy - sgb.ty) / sgb.ry⌋
  let sj : ℤ := ⌊(wx - sgb.tx) / sgb.rx⌋
  if 0 ≤ si ∧ si < sgb.ny ∧ 0 ≤ sj ∧ sj < sgb.nx then
    src.val (g.take axis ++ [si.toNat, sj.toNat])
  else dst_nodata.getD 0

/-! ### The xarray layer -/

/-- Model of an `xr.DataArray` as consumed and produced by
`xr_reproject_array`: the dask-backed data, the array name, dimension
names, names of the attached coordinates (coordinate values are not
modelled), the attribute map (nodata-valued attributes only), and the
GeoBox derived from the coordinates (`src.geobox`, an external accessor,
modelled as a field). -/
structure XrDataArray where
  data : DaskArray
  xname : Option String
  dims : List String
  coords : List String
  attrs : List (String × ℤ)
  geoboxOpt : Option GeoBox

/-- The odc `.nodata` accessor: `attrs.get("nodata", None)`. -/
def XrDataArray.nodata (x : XrDataArray) : Option ℤ :=
  (x.attrs.find? (fun e => e.1 = "nodata")).map Prod.snd

/-- Model of `datacube.utils.spatial_dims`: the `(row, col)` dimension
names of the array, recognised among the array's dimensions. -/
def spatial_dims (dims : List String) : Option (String × String) :=
  if "y" ∈ dims ∧ "x" ∈ dims then some ("y", "x")
  else if "latitude" ∈ dims ∧ "longitude" ∈ dims then
    some ("latitude", "longitude")
  else none

/-- The `(row, col)` dimension names of a GeoBox (`geobox.dims`), an
external accessor: geographic CRSs use latitude/longitude, projected
ones y/x. -/
def GeoBox.dimNames (g : GeoBox) : String × String :=
  if g.crs = 4326 then ("latitude", "longitude") else ("y", "x")

/-- `_warp.xr_reproject_array`: resolve the destination nodata
(`dst_nodata` or, when unset, `src.nodata`), find the spatial axis,
build the destination dims/coords, attach a `nodata` attribute exactly
when the resolved nodata is set, reproject the dask data and wrap it.
The source must be dask-backed, which the model's types guarantee. -/
def xr_reproject_array (src : XrDataArray) (geobox : GeoBox)
    (resampling : String) (chunks : Option (Nat × Nat))
    (dst_nodata : Option ℤ) (token : Nat) : Except String XrDataArray :=
  let dst_nodata' := dst_nodata.orElse fun _ => src.nodata
  match src.geoboxOpt with
  | none => .error "assert src_geobox is not None"
  | some src_geobox =>
    match spatial_dims src.dims with
    | none => .error "spatial_dims: no spatial dimensions found"
    | some yx_dims =>
      let axis := src.dims.findIdx (· = yx_dims.1)
      let src_dims := src.dims
      let dst_dims := src_dims.take axis ++
        [geobox.dimNames.1, geobox.dimNames.2] ++ src_dims.drop (axis + 2)
      let coords0 := [geobox.dimNames.1, geobox.dimNames.2, "spatial_ref"]
      let coords := coords0 ++ src_dims.filter (fun d => ¬ d ∈ coords0)
      let attrs : List (String × ℤ) :=
        match dst_nodata' with
        | some v => [("nodata", v)]
        | none => []
      match dask_reproject src.data src_geobox geobox resampling chunks
        src.nodata dst_nodata' axis "reproject" token with
      | .error e => .error e
      | .ok r =>
        .ok { data := { name := r.name, chunks := r.chunks,
                        dtype := r.dtype, val := r.valAt }
              xname := src.xname
              dims := dst_dims
              coords := coords
              attrs := attrs
              geoboxOpt := some geobox }

/-! ### Structure of the constructed graph -/

/-- The first pass of the builder (one resample task per intersecting
tile and prefix block, one cropped dependency per tile), in explicit
form: a fold that appends a dependency and a batch of entries per
element is the map/flatMap of the batches. -/
theorem foldl_append_pair {α β γ : Type} (g : α → γ) (f : α → List β)
    (xs : List α) (a0 : List γ) (b0 : List β) :
    xs.foldl (fun acc i => (acc.1 ++ [g i], acc.2 ++ f i)) (a0, b0) =
      (a0 ++ xs.map g, b0 ++ xs.flatMap f) := by
  induction xs generalizing a0 b0 with
  | nil => simp
  | cons x xs ih =>
    simp only [List.foldl_cons, ih, List.map_cons, List.flatMap_cons]
    simp

/-- The second pass of the builder in explicit form: folding
"add a fill task unless the key is present" over a duplicate-free list
of block indices appends exactly the fills for the missing keys. -/
theorem foldl_fill_eq (n : GName) (mk : List Nat → GKey × Task)
    (hk : ∀ idx, (mk idx).1 = (n, idx))
    (coords : List (List Nat)) (hnd : coords.Nodup)
    (d : List (GKey × Task)) :
    coords.foldl
      (fun d idx => if d.any (fun e => e.1 = (n, idx)) then d else d ++ [mk idx]) d =
      d ++ (coords.filter
        (fun idx => ¬ d.any (fun e => e.1 = (n, idx)))).map mk := by
  induction coords generalizing d with
  | nil => simp
  | cons i coords ih =>
    rcases List.nodup_cons.mp hnd with ⟨hi, hnd'⟩
    simp only [List.foldl_cons, List.filter_cons]
    by_cases hmem : d.any (fun e => e.1 = (n, i))
    · rw [if_pos hmem, ih hnd' d]
      have : (decide ¬ (d.any (fun e => e.1 = (n, i)) = true)) = false := by
        simp [hmem]
      rw [this]
      simp
    · rw [if_neg hmem, ih hnd' (d ++ [mk i])]
      have hdec : (decide ¬ (d.any (fun e => e.1 = (n, i)) = true)) = true := by
        simp [hmem]
      rw [hdec]
      have hfilter :
          coords.filter (fun idx => ¬ ((d ++ [mk i]).any (fun e => e.1 = (n, idx)))) =
            coords.filter (fun idx => ¬ (d.any (fun e => e.1 = (n, idx)))) := by
        apply List.filter_congr
        intro j hj
        have hne : i ≠ j := fun h => hi (h ▸ hj)
        simp only [List.any_append, List.any_cons, List.any_nil, hk i,
          Bool.or_false, decide_eq_decide, Bool.or_eq_true, decide_eq_true_eq,
          Prod.mk.injEq]
        tauto
      rw [hfilter]
      simp

/-- Tile membership: a tile index is produced by `gbt.tiles(footprint)`
precisely when it is within the tile-grid range and its extent
intersects the footprint. -/
theorem mem_tiles {t : GeoboxTiles} {fp : Rect} {rc : Nat × Nat} :
    rc ∈ t.tiles fp ↔
      rc.1 < t.chy.length ∧ rc.2 < t.chx.length ∧
        (t.tileBox rc.1 rc.2).extent.intersects fp := by
  obtain ⟨r, c⟩ := rc
  simp only [GeoboxTiles.tiles, List.mem_flatMap, List.mem_filterMap, List.mem_range]
  constructor
  · rintro ⟨r', hr', c', hc', h⟩
    by_cases hint : (t.tileBox r' c').extent.intersects fp
    · rw [if_pos hint] at h
      obtain ⟨rfl, rfl⟩ : r' = r ∧ c' = c := by
        constructor <;> (injection h with h'; simp_all)
      exact ⟨hr', hc', hint⟩
    · rw [if_neg hint] at h; exact absurd h (by simp)
  · rintro ⟨hr, hc, hint⟩
    exact ⟨r, hr, c, hc, by rw [if_pos hint]⟩

theorem tiles_nodup (t : GeoboxTiles) (fp : Rect) : (t.tiles fp).Nodup := by
  apply List.nodup_flatMap.mpr
  constructor
  · intro r _
    apply List.Nodup.filterMap ?_ (List.nodup_range _)
    intro c c' rc hc hc'
    rw [Option.mem_def] at hc hc'
    by_cases h1 : (t.tileBox r c).extent.intersects fp
    · rw [if_pos h1] at hc
      by_cases h2 : (t.tileBox r c').extent.intersects fp
      · rw [if_pos h2] at hc'
        injection hc with e1; injection hc' with e2
        cases e2
        simp only [Prod.mk.injEq, true_and] at e1
        exact e1
      · rw [if_neg h2] at hc'; simp at hc'
    · rw [if_neg h1] at hc; simp at hc
  · refine (List.nodup_range _).pairwise_of_forall_ne ?_
    intro r _ r' _ hne
    simp only [Function.onFun, List.Disjoint, List.mem_filterMap, List.mem_range]
    rintro ⟨a, b⟩ ⟨c, _, h⟩ ⟨c', _, h'⟩
    apply hne
    split at h <;> split at h' <;> simp_all

/-- The GeoBox of tile `(r, c)` of `mkGeoboxTiles dgb cy cx`. -/
def tileBoxAt (dgb : GeoBox) (cy cx : Nat) (idx : Nat × Nat) : GeoBox :=
  (mkGeoboxTiles dgb cy cx).tileBox idx.1 idx.2

/-- The source-side ROI computed for tile `idx`. -/
def roiAt (sgb dgb : GeoBox) (cy cx : Nat) (idx : Nat × Nat) : Roi :=
  (compute_reproject_roi sgb (tileBoxAt dgb cy cx idx)).roi_src

/-- The cropped dense source sub-array built for tile `idx`. -/
def cropAt (src : DaskArray) (sgb dgb : GeoBox) (cy cx axis : Nat)
    (idx : Nat × Nat) : DaskArray :=
  crop_2d_dense src (roiAt sgb dgb cy cx idx) axis

/-- The resample entry registered at destination block key
`(prefix-indices…, tile-row, tile-col)`. -/
def resampleEntryAt (src : DaskArray) (sgb dgb : GeoBox) (cy cx : Nat)
    (res : String) (sn dn : Option ℤ) (axis : Nat) (nm : GName)
    (idx : Nat × Nat) (ii1 : List Nat) : GKey × Task :=
  ((nm, ii1 ++ [idx.1, idx.2]),
   Task.resample (cropAt src sgb dgb cy cx axis idx).name (ii1 ++ [0, 0])
     (sgb.sliceRoi (roiAt sgb dgb cy cx idx)) (tileBoxAt dgb cy cx idx)
     res sn dn axis)

/-- The shape-in-blocks of the prefix axes. -/
def dims1Of (src : DaskArray) (axis : Nat) : List Nat :=
  (src.chunks.take axis).map List.length

/-- The complete destination chunking. -/
def dstChunksOf (src : DaskArray) (dgb : GeoBox) (cy cx axis : Nat) :
    List (List Nat) :=
  src.chunks.take axis ++
    [unpack_chunksize cy dgb.ny, unpack_chunksize cx dgb.nx] ++
    src.chunks.drop (axis + 2)

/-- The resample entries of the first pass, in explicit form. -/
def dsk0Of (src : DaskArray) (sgb dgb : GeoBox) (cy cx : Nat) (res : String)
    (sn dn : Option ℤ) (axis : Nat) (nm : GName) : List (GKey × Task) :=
  ((mkGeoboxTiles dgb cy cx).tiles sgb.extent).flatMap fun idx =>
    (ndindex (dims1Of src axis)).map
      (resampleEntryAt src sgb dgb cy cx res sn dn axis nm idx)

/-- The constant-fill entries of the second pass, in explicit form. -/
def fillsOf (src : DaskArray) (sgb dgb : GeoBox) (cy cx : Nat) (res : String)
    (sn dn : Option ℤ) (axis : Nat) (nm : GName) : List (GKey × Task) :=
  ((ndindex ((dstChunksOf src dgb cy cx axis).map List.length)).filter
     (fun idx =>
       ¬ (dsk0Of src sgb dgb cy cx res sn dn axis nm).any
         (fun e => e.1 = (nm, idx)))).map
    (fun idx => ((nm, idx),
      Task.fill (blockShape (dstChunksOf src dgb cy cx axis) idx) (dn.getD 0)))

/-- Explicit form of the whole builder output, for a two-element chunk
request and a row axis within the source rank. -/
theorem reprojectGraph_eq (src : DaskArray) (sgb dgb : GeoBox) (res : String)
    (cy cx : Nat) (sn dn : Option ℤ) (axis : Nat) (nm : String) (tk : Nat)
    (hax : axis ≤ src.chunks.length) :
    reprojectGraph src sgb dgb res [cy, cx] sn dn axis nm tk =
      { dsk := dsk0Of src sgb dgb cy cx res sn dn axis (GName.str nm tk) ++
          fillsOf src sgb dgb cy cx res sn dn axis (GName.str nm tk)
        name := GName.str nm tk
        chunks := dstChunksOf src dgb cy cx axis
        dtype := src.dtype
        shape := src.shape.take axis ++ [dgb.ny, dgb.nx] ++ src.shape.drop (axis + 2)
        deps := src :: ((mkGeoboxTiles dgb cy cx).tiles sgb.extent).map
          (cropAt src sgb dgb cy cx axis) } := by
  have hd1 : ((src.chunks.take axis ++
      [unpack_chunksize cy dgb.ny, unpack_chunksize cx dgb.nx] ++
      src.chunks.drop (axis + 2)).take axis) = src.chunks.take axis := by
    rw [List.append_assoc, List.take_append_of_le_length, List.take_take,
      Nat.min_self]
    simpa using hax
  simp only [reprojectGraph, randomize,
    show ([cy, cx].getD 0 0) = cy from rfl,
    show ([cy, cx].getD 1 0) = cx from rfl,
    show List.zipWith unpack_chunksize [cy, cx] [dgb.ny, dgb.nx] =
      [unpack_chunksize cy dgb.ny, unpack_chunksize cx dgb.nx] from rfl, hd1]
  rw [foldl_append_pair]
  rw [show (List.take axis src.chunks ++
      [unpack_chunksize cy dgb.ny, unpack_chunksize cx dgb.nx] ++
      List.drop (axis + 2) src.chunks) = dstChunksOf src dgb cy cx axis from rfl]
  rw [foldl_fill_eq (GName.str nm tk)
    (fun idx => ((GName.str nm tk, idx),
      Task.fill (blockShape (dstChunksOf src dgb cy cx axis) idx) (dn.getD 0)))
    (fun _ => rfl) _ (ndindex_nodup _) _]
  simp only [List.nil_append, List.singleton_append]
  rfl

theorem ndindex_append {s1 s2 k : List Nat} :
    k ∈ ndindex (s1 ++ s2) ↔
      k.take s1.length ∈ ndindex s1 ∧ k.drop s1.length ∈ ndindex s2 := by
  rw [mem_ndindex, mem_ndindex, mem_ndindex]
  constructor
  · intro h
    exact ⟨List.forall₂_take_append _ _ _ h, List.forall₂_drop_append _ _ _ h⟩
  · rintro ⟨h1, h2⟩
    have h3 := List.rel_append h1 h2
    simp only at h3
    rwa [List.take_append_drop] at h3

theorem eq_take_append_pair {k : List Nat} {n1 : Nat} (h : k.length = n1 + 2) :
    k = k.take n1 ++ [k.getD n1 0, k.getD (n1 + 1) 0] := by
  have hd : k.drop n1 = [k.getD n1 0, k.getD (n1 + 1) 0] := by
    match hm : k.drop n1 with
    | [] =>
      have := congrArg List.length hm
      simp only [List.length_drop, List.length_nil] at this
      omega
    | [a] =>
      have := congrArg List.length hm
      simp only [List.length_drop, List.length_cons, List.length_nil] at this
      omega
    | a :: b :: t =>
      have hlen := congrArg List.length hm
      simp only [List.length_drop, List.length_cons] at hlen
      have ht : t = [] := List.eq_nil_of_length_eq_zero (by omega)
      subst ht
      have ha : k.getD n1 0 = a := by
        rw [List.getD_eq_getElem?_getD, show n1 = n1 + 0 from rfl,
          ← List.getElem?_drop, hm]
        rfl
      have hb : k.getD (n1 + 1) 0 = b := by
        rw [List.getD_eq_getElem?_getD, ← List.getElem?_drop, hm]
        rfl
      rw [ha, hb]
  conv_lhs => rw [← List.take_append_drop n1 k]
  rw [hd]

/-- The key list of the first-pass entries. -/
theorem dsk0_keys (src : DaskArray) (sgb dgb : GeoBox) (cy cx : Nat)
    (res : String) (sn dn : Option ℤ) (axis : Nat) (nm : GName) :
    (dsk0Of src sgb dgb cy cx res sn dn axis nm).map Prod.fst =
      ((mkGeoboxTiles dgb cy cx).tiles sgb.extent).flatMap fun idx =>
        (ndindex (dims1Of src axis)).map fun ii1 => (nm, ii1 ++ [idx.1, idx.2]) := by
  simp [dsk0Of, List.map_flatMap, resampleEntryAt, Function.comp_def]

theorem dsk0_keys_nodup (src : DaskArray) (sgb dgb : GeoBox) (cy cx : Nat)
    (res : String) (sn dn : Option ℤ) (axis : Nat) (nm : GName) :
    ((dsk0Of src sgb dgb cy cx res sn dn axis nm).map Prod.fst).Nodup := by
  rw [dsk0_keys]
  apply List.nodup_flatMap.mpr
  constructor
  · intro idx _
    refine (ndindex_nodup _).map ?_
    intro a b hab
    injection hab with _ h
    exact List.append_cancel_right h
  · refine (tiles_nodup _ _).pairwise_of_forall_ne ?_
    intro idx _ idx' _ hne
    simp only [Function.onFun, List.Disjoint, List.mem_map]
    rintro x ⟨a, ha, rfl⟩ ⟨b, hb, hEq⟩
    injection hEq with _ h
    have hlen : b.length = a.length := by
      rw [length_of_mem_ndindex ha, length_of_mem_ndindex hb]
    obtain ⟨-, h2⟩ := List.append_inj h hlen
    apply hne
    obtain ⟨i1, i2⟩ := idx
    obtain ⟨j1, j2⟩ := idx'
    injection h2 with e1 h2
    injection h2 with e2 _
    exact Prod.ext e1.symm e2.symm

theorem dsk0_key_mem {src : DaskArray} {sgb dgb : GeoBox} {cy cx : Nat}
    {res : String} {sn dn : Option ℤ} {axis : Nat} {nm : GName}
    {k : List Nat} (hax : axis ≤ src.chunks.length) :
    (nm, k) ∈ (dsk0Of src sgb dgb cy cx res sn dn axis nm).map Prod.fst ↔
      k.take axis ∈ ndindex (dims1Of src axis) ∧ k.length = axis + 2 ∧
        (k.getD axis 0, k.getD (axis + 1) 0) ∈
          (mkGeoboxTiles dgb cy cx).tiles sgb.extent := by
  have hdl : (dims1Of src axis).length = axis := by
    simp [dims1Of]; omega
  rw [dsk0_keys]
  simp only [List.mem_flatMap, List.mem_map]
  constructor
  · rintro ⟨idx, hidx, ii1, hii1, hk⟩
    injection hk with _ hk
    subst hk
    have hlen : ii1.length = axis := by rw [length_of_mem_ndindex hii1, hdl]
    have htake : (ii1 ++ [idx.1, idx.2]).take axis = ii1 :=
      List.take_left' hlen
    refine ⟨?_, by simp [hlen], ?_⟩
    · rw [htake]
      exact hii1
    · have h1 : (ii1 ++ [idx.1, idx.2]).getD axis 0 = idx.1 := by
        rw [List.getD_eq_getElem?_getD, List.getElem?_append_right (by omega),
          hlen]
        simp
      have h2 : (ii1 ++ [idx.1, idx.2]).getD (axis + 1) 0 = idx.2 := by
        rw [List.getD_eq_getElem?_getD, List.getElem?_append_right (by omega),
          hlen]
        simp
      rw [h1, h2]
      exact hidx
  · rintro ⟨h1, h2, h3⟩
    refine ⟨(k.getD axis 0, k.getD (axis + 1) 0), h3, k.take axis, h1, ?_⟩
    rw [← eq_take_append_pair h2]

/-- Validity of the two asserted preconditions pins the source rank to
`axis + 2`. -/
theorem chunks_len_of_valid {src : DaskArray} {sgb : GeoBox} {axis : Nat}
    (hs : (src.shape.drop axis).take 2 = sgb.shape)
    (ht : src.chunks.drop (axis + 2) = []) :
    src.chunks.length = axis + 2 := by
  have h1 := congrArg List.length hs
  have h2 := congrArg List.length ht
  simp only [List.length_take, List.length_drop, GeoBox.shape,
    List.length_cons, List.length_nil, DaskArray.shape, List.length_map] at h1 h2
  omega

theorem resolvedChunks_eq_pair {src : DaskArray} {chunks : Option (Nat × Nat)}
    {axis : Nat} (h : axis + 2 ≤ src.chunks.length) :
    resolvedChunks src chunks axis =
      [(resolvedChunks src chunks axis).getD 0 0,
       (resolvedChunks src chunks axis).getD 1 0] := by
  match chunks with
  | some (a, b) => rfl
  | none =>
    have hl : 2 ≤ (src.chunksize.drop axis).length := by
      simp only [List.length_drop, DaskArray.chunksize, List.length_map]
      omega
    simp only [resolvedChunks]
    match hm : src.chunksize.drop axis with
    | [] => rw [hm] at hl; simp at hl
    | [a] => rw [hm] at hl; simp at hl
    | a :: b :: t => simp

/-- With the two asserted preconditions satisfied, `dask_reproject`
succeeds and returns exactly the constructed graph (with the nodata
default applied). -/
theorem dask_reproject_ok (src : DaskArray) (sgb dgb : GeoBox) (res : String)
    (chunks : Option (Nat × Nat)) (sn dn : Option ℤ) (axis : Nat)
    (nm : String) (tk : Nat)
    (hs : (src.shape.drop axis).take 2 = sgb.shape)
    (ht : src.chunks.drop (axis + 2) = []) :
    dask_reproject src sgb dgb res chunks sn dn axis nm tk =
      .ok (reprojectGraph src sgb dgb res (resolvedChunks src chunks axis)
        sn (dn.orElse fun _ => sn) axis nm tk) := by
  simp [dask_reproject, hs, ht]

theorem fills_keys (src : DaskArray) (sgb dgb : GeoBox) (cy cx : Nat)
    (res : String) (sn dn : Option ℤ) (axis : Nat) (nm : GName) :
    (fillsOf src sgb dgb cy cx res sn dn axis nm).map Prod.fst =
      ((ndindex ((dstChunksOf src dgb cy cx axis).map List.length)).filter
        (fun idx => ¬ (dsk0Of src sgb dgb cy cx res sn dn axis nm).any
          (fun e => e.1 = (nm, idx)))).map (fun idx => (nm, idx)) := by
  simp [fillsOf, List.map_map, Function.comp_def]

theorem fills_keys_nodup (src : DaskArray) (sgb dgb : GeoBox) (cy cx : Nat)
    (res : String) (sn dn : Option ℤ) (axis : Nat) (nm : GName) :
    ((fillsOf src sgb dgb cy cx res sn dn axis nm).map Prod.fst).Nodup := by
  rw [fills_keys]
  exact ((ndindex_nodup _).filter _).map fun a b hab => congrArg Prod.snd hab

theorem mem_fills_keys {src : DaskArray} {sgb dgb : GeoBox} {cy cx : Nat}
    {res : String} {sn dn : Option ℤ} {axis : Nat} {nm : GName} {k : List Nat} :
    (nm, k) ∈ (fillsOf src sgb dgb cy cx res sn dn axis nm).map Prod.fst ↔
      k ∈ ndindex ((dstChunksOf src dgb cy cx axis).map List.length) ∧
        (nm, k) ∉ (dsk0Of src sgb dgb cy cx res sn dn axis nm).map Prod.fst := by
  rw [fills_keys]
  constructor
  · intro h
    rcases List.mem_map.mp h with ⟨a, ha, hk⟩
    have hak : a = k := congrArg Prod.snd hk
    subst hak
    rcases List.mem_filter.mp ha with ⟨ha1, ha2⟩
    simp only [decide_eq_true_eq] at ha2
    refine ⟨ha1, ?_⟩
    intro hmem
    rcases List.mem_map.mp hmem with ⟨e, he, hk'⟩
    exact ha2 (List.any_eq_true.mpr ⟨e, he, by simp [hk']⟩)
  · rintro ⟨hk, hmem⟩
    refine List.mem_map.mpr ⟨k, List.mem_filter.mpr ⟨hk, ?_⟩, rfl⟩
    simp only [decide_eq_true_eq]
    intro hany
    rcases List.any_eq_true.mp hany with ⟨e, he, hp⟩
    exact hmem (List.mem_map.mpr ⟨e, he, of_decide_eq_true hp⟩)

/-- Any first-pass key lies in the shape-in-blocks index space. -/
theorem keys0_mem_space {src : DaskArray} {sgb dgb : GeoBox} {cy cx : Nat}
    {res : String} {sn dn : Option ℤ} {axis : Nat} {nm : GName} {k : List Nat}
    (hlen : src.chunks.length = axis + 2)
    (h : (nm, k) ∈ (dsk0Of src sgb dgb cy cx res sn dn axis nm).map Prod.fst) :
    k ∈ ndindex ((dstChunksOf src dgb cy cx axis).map List.length) := by
  have hdrop : src.chunks.drop (axis + 2) = [] :=
    List.drop_eq_nil_of_le (by omega)
  have hdl : (dims1Of src axis).length = axis := by
    simp only [dims1Of, List.length_map, List.length_take]
    omega
  obtain ⟨h1, h2, h3⟩ := (dsk0_key_mem (by omega)).mp h
  have hsib : (dstChunksOf src dgb cy cx axis).map List.length =
      dims1Of src axis ++ [(unpack_chunksize cy dgb.ny).length,
        (unpack_chunksize cx dgb.nx).length] := by
    simp [dstChunksOf, hdrop, dims1Of]
  rw [hsib, ndindex_append, hdl]
  refine ⟨h1, ?_⟩
  have hd : k.drop axis = [k.getD axis 0, k.getD (axis + 1) 0] := by
    conv_lhs => rw [eq_take_append_pair h2]
    rw [List.drop_left' (by simp [List.length_take]; omega)]
  rw [hd, mem_ndindex]
  obtain ⟨hr, hc, -⟩ := mem_tiles.mp h3
  exact List.Forall₂.cons hr (List.Forall₂.cons hc List.Forall₂.nil)

/-- A list of pairs whose key list is duplicate-free holds exactly one
entry with a given present key. -/
theorem countP_fst_eq_one {α β : Type} [DecidableEq α] {l : List (α × β)}
    {a : α} (h : (l.map Prod.fst).Nodup) (ha : a ∈ l.map Prod.fst) :
    l.countP (fun e => e.1 = a) = 1 := by
  induction l with
  | nil => simp at ha
  | cons e l ih =>
    rw [List.map_cons, List.nodup_cons] at h
    rw [List.map_cons, List.mem_cons] at ha
    rw [List.countP_cons]
    by_cases he : e.1 = a
    · have hnot : a ∉ l.map Prod.fst := he ▸ h.1
      rw [List.countP_eq_zero.mpr, if_pos (by simp [he])]
      intro x hx
      simp only [decide_eq_true_eq]
      intro hxa
      exact hnot (hxa ▸ List.mem_map.mpr ⟨x, hx, rfl⟩)
    · rcases ha with ha | ha
      · exact absurd ha.symm he
      · rw [ih h.2 ha, if_neg (by simp [he])]

theorem countP_fst_eq_zero {α β : Type} [DecidableEq α] {l : List (α × β)}
    {a : α} (ha : a ∉ l.map Prod.fst) :
    l.countP (fun e => e.1 = a) = 0 := by
  rw [List.countP_eq_zero]
  intro x hx
  simp only [decide_eq_true_eq]
  intro hxa
  exact ha (hxa ▸ List.mem_map.mpr ⟨x, hx, rfl⟩)

/-- Each key of the shape-in-blocks space appears exactly once in the
assembled graph; keys outside the space do not appear. -/
theorem graph_key_count (src : DaskArray) (sgb dgb : GeoBox) (cy cx : Nat)
    (res : String) (sn dn : Option ℤ) (axis : Nat) (nm : GName)
    (hlen : src.chunks.length = axis + 2) (k : List Nat) :
    ((dsk0Of src sgb dgb cy cx res sn dn axis nm ++
        fillsOf src sgb dgb cy cx res sn dn axis nm).countP
          (fun e => e.1 = (nm, k))) =
      if k ∈ ndindex ((dstChunksOf src dgb cy cx axis).map List.length)
      then 1 else 0 := by
  rw [List.countP_append]
  by_cases hk : k ∈ ndindex ((dstChunksOf src dgb cy cx axis).map List.length)
  · rw [if_pos hk]
    by_cases hmem : (nm, k) ∈
        (dsk0Of src sgb dgb cy cx res sn dn axis nm).map Prod.fst
    · rw [countP_fst_eq_one (dsk0_keys_nodup _ _ _ _ _ _ _ _ _ _) hmem,
        countP_fst_eq_zero (fun hfill => ((mem_fills_keys.mp hfill).2 hmem))]
    · rw [countP_fst_eq_zero hmem,
        countP_fst_eq_one (fills_keys_nodup _ _ _ _ _ _ _ _ _ _)
          (mem_fills_keys.mpr ⟨hk, hmem⟩)]
  · rw [if_neg hk]
    rw [countP_fst_eq_zero (fun h => hk (keys0_mem_space hlen h)),
      countP_fst_eq_zero (fun h => hk (mem_fills_keys.mp h).1)]

/-- Splitting a member of the shape-in-blocks space into its prefix part
and its in-range row/col block coordinates. -/
theorem space_split {src : DaskArray} {dgb : GeoBox} {cy cx axis : Nat}
    {k : List Nat} (hlen : src.chunks.length = axis + 2)
    (hk : k ∈ ndindex ((dstChunksOf src dgb cy cx axis).map List.length)) :
    k.take axis ∈ ndindex (dims1Of src axis) ∧ k.length = axis + 2 ∧
      k.getD axis 0 < (unpack_chunksize cy dgb.ny).length ∧
      k.getD (axis + 1) 0 < (unpack_chunksize cx dgb.nx).length := by
  have hdrop : src.chunks.drop (axis + 2) = [] :=
    List.drop_eq_nil_of_le (by omega)
  have hdl : (dims1Of src axis).length = axis := by
    simp only [dims1Of, List.length_map, List.length_take]
    omega
  have hsib : (dstChunksOf src dgb cy cx axis).map List.length =
      dims1Of src axis ++ [(unpack_chunksize cy dgb.ny).length,
        (unpack_chunksize cx dgb.nx).length] := by
    simp [dstChunksOf, hdrop, dims1Of]
  rw [hsib, ndindex_append, hdl] at hk
  have hklen : k.length = axis + 2 := by
    have h1 := length_of_mem_ndindex hk.1
    have h2 := length_of_mem_ndindex hk.2
    simp only [List.length_take, List.length_drop, hdl, List.length_cons,
      List.length_nil] at h1 h2
    omega
  have hd : k.drop axis = [k.getD axis 0, k.getD (axis + 1) 0] := by
    conv_lhs => rw [eq_take_append_pair hklen]
    rw [List.drop_left' (by simp [List.length_take]; omega)]
  have hk2 := hk.2
  rw [hd, mem_ndindex] at hk2
  rcases hk2 with _ | ⟨hr, hk2⟩
  rcases hk2 with _ | ⟨hc, -⟩
  exact ⟨hk.1, hklen, hr, hc⟩

/-- Every entry of the assembled graph is either a resample task at a
key whose tile intersects the footprint, or the constant-fill task of
its block shape at a key whose tile does not. -/
theorem graph_entry_cases {src : DaskArray} {sgb dgb : GeoBox} {cy cx : Nat}
    {res : String} {sn dn : Option ℤ} {axis : Nat} {nm : GName}
    (hlen : src.chunks.length = axis + 2) {k : List Nat} {t : Task}
    (h : ((nm, k), t) ∈ dsk0Of src sgb dgb cy cx res sn dn axis nm ++
      fillsOf src sgb dgb cy cx res sn dn axis nm) :
    (t.isResample = true ∧
      (k.getD axis 0, k.getD (axis + 1) 0) ∈
        (mkGeoboxTiles dgb cy cx).tiles sgb.extent) ∨
    (t = Task.fill (blockShape (dstChunksOf src dgb cy cx axis) k) (dn.getD 0) ∧
      k ∈ ndindex ((dstChunksOf src dgb cy cx axis).map List.length) ∧
      (k.getD axis 0, k.getD (axis + 1) 0) ∉
        (mkGeoboxTiles dgb cy cx).tiles sgb.extent) := by
  rcases List.mem_append.mp h with h0 | h0
  · left
    have hkey : (nm, k) ∈
        (dsk0Of src sgb dgb cy cx res sn dn axis nm).map Prod.fst :=
      List.mem_map.mpr ⟨_, h0, rfl⟩
    refine ⟨?_, ((dsk0_key_mem (by omega)).mp hkey).2.2⟩
    rcases List.mem_flatMap.mp h0 with ⟨idx, -, hmem⟩
    rcases List.mem_map.mp hmem with ⟨ii1, -, he⟩
    have := congrArg Prod.snd he
    simp only [resampleEntryAt] at this
    rw [← this]
    rfl
  · right
    rcases List.mem_map.mp h0 with ⟨a, ha, he⟩
    rcases List.mem_filter.mp ha with ⟨ha1, ha2⟩
    have hak : a = k := congrArg (fun e => e.1.2) he
    subst hak
    have ht : t = Task.fill (blockShape (dstChunksOf src dgb cy cx axis) a)
        (dn.getD 0) := (congrArg Prod.snd he).symm
    refine ⟨ht, ha1, ?_⟩
    intro htile
    simp only [decide_eq_true_eq] at ha2
    obtain ⟨hp1, hp2, -, -⟩ := space_split hlen ha1
    have hkey : (nm, a) ∈
        (dsk0Of src sgb dgb cy cx res sn dn axis nm).map Prod.fst :=
      (dsk0_key_mem (by omega)).mpr ⟨hp1, hp2, htile⟩
    rcases List.mem_map.mp hkey with ⟨e, he', hk'⟩
    exact ha2 (List.any_eq_true.mpr ⟨e, he', by simp [hk']⟩)

/-- C2: malformed inputs (row/col extent mismatch with the source grid,
or trailing axes after row/col) make `dask_reproject` fail synchronously
at graph-construction time: the call returns an error and no task graph
(not even a partial one) is ever produced. -/
theorem dask_reproject_fails_fast
    (src : DaskArray) (sgb dgb : GeoBox) (res : String)
    (chunks : Option (Nat × Nat)) (sn dn : Option ℤ) (axis : Nat)
    (nm : String) (tk : Nat)
    (h : (src.shape.drop axis).take 2 ≠ sgb.shape ∨ axis + 2 < src.shape.length) :
    ∃ e, dask_reproject src sgb dgb res chunks sn dn axis nm tk = .error e := by
  unfold dask_reproject
  by_cases h1 : (src.shape.drop axis).take 2 ≠ sgb.shape
  · exact ⟨_, by rw [if_pos h1]⟩
  · have h2 : axis + 2 < src.shape.length := by tauto
    have h3 : src.chunks.drop (axis + 2) ≠ [] := by
      intro hc
      have hlen := congrArg List.length hc
      simp only [List.length_drop, List.length_nil] at hlen
      have : src.shape.length = src.chunks.length := by
        simp [DaskArray.shape]
      omega
    exact ⟨_, by rw [if_neg h1, if_pos h3]⟩

theorem dask_reproject_fails_fast_witness :
    ∃ e, dask_reproject
      ⟨GName.plain "s", [[2], [2], [1]], "uint8", fun _ => 0⟩
      ⟨2, 2, 1, 1, 0, 0, 32600⟩ ⟨2, 2, 1, 1, 0, 0, 32600⟩
      "nearest" none none none 0 "reproject" 0 = .error e :=
  dask_reproject_fails_fast _ _ _ _ _ _ _ _ _ _ (Or.inr (by decide))

theorem tile_not_mem_contr {dgb : GeoBox} {cy cx : Nat} {fp : Rect}
    {a b : Nat}
    (hr' : a < (unpack_chunksize cy dgb.ny).length)
    (hc' : b < (unpack_chunksize cx dgb.nx).length)
    (htile : (a, b) ∉ (mkGeoboxTiles dgb cy cx).tiles fp)
    (hint : ((mkGeoboxTiles dgb cy cx).tileBox a b).extent.intersects fp = true) :
    False :=
  htile (mem_tiles.mpr ⟨hr', hc', hint⟩)

set_option maxHeartbeats 1000000 in
/-- C1: for every call of `dask_reproject` that returns, every block
coordinate of the destination shape-in-blocks space carries exactly one
task in the constructed graph — a resample task when the destination
tile intersects the source grid's footprint, a constant-fill task
otherwise, never both and never missing — and no key outside the space
is registered, for any chunk sizes (even or uneven). -/
theorem dask_reproject_one_task_per_key
    (src : DaskArray) (sgb dgb : GeoBox) (res : String)
    (chunks : Option (Nat × Nat)) (sn dn : Option ℤ) (axis : Nat)
    (nm : String) (tk : Nat) (r : ReprojResult)
    (hs : (src.shape.drop axis).take 2 = sgb.shape)
    (ht : src.chunks.drop (axis + 2) = [])
    (hr : dask_reproject src sgb dgb res chunks sn dn axis nm tk = .ok r) :
    ∀ idx : List Nat,
      (r.dsk.countP (fun e => e.1 = (r.name, idx)) =
        if idx ∈ ndindex (r.chunks.map List.length) then 1 else 0) ∧
      (∀ t, ((r.name, idx), t) ∈ r.dsk →
        (t.isResample = true ↔
          ((mkGeoboxTiles dgb ((resolvedChunks src chunks axis).getD 0 0)
              ((resolvedChunks src chunks axis).getD 1 0)).tileBox
            (idx.getD axis 0) (idx.getD (axis + 1) 0)).extent.intersects
            sgb.extent = true)) := by
  have hlen := chunks_len_of_valid hs ht
  have hax : axis ≤ src.chunks.length := by omega
  rw [dask_reproject_ok src sgb dgb res chunks sn dn axis nm tk hs ht] at hr
  obtain rfl : reprojectGraph src sgb dgb res (resolvedChunks src chunks axis)
      sn (dn.orElse fun _ => sn) axis nm tk = r := Except.ok.inj hr
  obtain ⟨cy, cx, hcc⟩ : ∃ cy cx, resolvedChunks src chunks axis = [cy, cx] :=
    ⟨_, _, resolvedChunks_eq_pair (by omega)⟩
  rw [hcc, reprojectGraph_eq src sgb dgb res cy cx sn _ axis nm tk hax]
  simp only [show ([cy, cx] : List Nat).getD 0 0 = cy from rfl,
    show ([cy, cx] : List Nat).getD 1 0 = cx from rfl]
  intro idx
  constructor
  · exact graph_key_count src sgb dgb cy cx res sn _ axis _ hlen idx
  · intro t hmem
    rcases graph_entry_cases hlen hmem with ⟨hres, htile⟩ | ⟨hfill, hspace, htile⟩
    · simp only [hres, true_iff]
      exact (mem_tiles.mp htile).2.2
    · obtain ⟨-, -, hr', hc'⟩ := space_split hlen hspace
      constructor
      · intro hres
        rw [hfill] at hres
        simp [Task.isResample] at hres
      · intro hint
        exact (tile_not_mem_contr hr' hc' htile hint).elim

theorem dask_reproject_one_task_per_key_witness :
    ((reprojectGraph ⟨GName.plain "src", [[2], [2]], "int16", fun _ => 0⟩
        ⟨2, 2, 1, 1, 0, 0, 32600⟩ ⟨2, 2, 1, 1, 0, 0, 32600⟩ "nearest"
        (resolvedChunks ⟨GName.plain "src", [[2], [2]], "int16", fun _ => 0⟩
          (some (1, 1)) 0) none (Option.orElse none fun _ => none) 0
        "reproject" 0).dsk.countP
      (fun e => e.1 = ((reprojectGraph ⟨GName.plain "src", [[2], [2]], "int16",
        fun _ => 0⟩ ⟨2, 2, 1, 1, 0, 0, 32600⟩ ⟨2, 2, 1, 1, 0, 0, 32600⟩
        "nearest" (resolvedChunks ⟨GName.plain "src", [[2], [2]], "int16",
          fun _ => 0⟩ (some (1, 1)) 0) none (Option.orElse none fun _ => none) 0
        "reproject" 0).name, [0, 1])) =
      if [0, 1] ∈ ndindex ((reprojectGraph ⟨GName.plain "src", [[2], [2]],
          "int16", fun _ => 0⟩ ⟨2, 2, 1, 1, 0, 0, 32600⟩
          ⟨2, 2, 1, 1, 0, 0, 32600⟩ "nearest"
          (resolvedChunks ⟨GName.plain "src", [[2], [2]], "int16", fun _ => 0⟩
            (some (1, 1)) 0) none (Option.orElse none fun _ => none) 0
          "reproject" 0).chunks.map List.length) then 1 else 0) :=
  ((dask_reproject_one_task_per_key
    ⟨GName.plain "src", [[2], [2]], "int16", fun _ => 0⟩
    ⟨2, 2, 1, 1, 0, 0, 32600⟩ ⟨2, 2, 1, 1, 0, 0, 32600⟩ "nearest"
    (some (1, 1)) none none 0 "reproject" 0 _ (by decide) rfl
    (dask_reproject_ok _ _ _ _ _ _ _ _ _ _ (by decide) rfl)) [0, 1]).1

/-! ### Shapes and block resolution of the evaluated graph -/

theorem foldl_writeSlice_shape (xs : List (List Nat)) (f : List Nat → NDArr)
    (d : NDArr) :
    (xs.foldl (fun d p => d.writeSlice p (f p)) d).shape = d.shape := by
  induction xs generalizing d with
  | nil => rfl
  | cons x xs ih => rw [List.foldl_cons, ih]; rfl

theorem rio_reproject_shape_2d {src : NDArr} {a b : Nat}
    (h : src.shape = [a, b]) (sgb dgb : GeoBox) (res : String)
    (sn dn : Option ℤ) :
    (rio_reproject src sgb dgb res sn dn).shape = [dgb.ny, dgb.nx] := by
  unfold rio_reproject
  rw [h]

theorem rio_reproject_shape_3d {src : NDArr} {a b c : Nat}
    (h : src.shape = [a, b, c]) (sgb dgb : GeoBox) (res : String)
    (sn dn : Option ℤ) :
    (rio_reproject src sgb dgb res sn dn).shape = [a, dgb.ny, dgb.nx] := by
  unfold rio_reproject
  rw [h]

/-- The output of `_reproject_block_impl` always has the row/col extent
replaced by the destination GeoBox shape. -/
theorem reproject_block_impl_shape (src : NDArr) (sgb dgb : GeoBox)
    (res : String) (sn dn : Option ℤ) (axis : Nat)
    (h : src.shape.length = axis + 2) :
    (_reproject_block_impl src sgb dgb res sn dn axis).shape =
      src.shape.take axis ++ [dgb.ny, dgb.nx] := by
  have hdrop : src.shape.drop (axis + 2) = [] := List.drop_eq_nil_of_le (by omega)
  have htl : (src.shape.take axis).length = axis := by
    simp only [List.length_take]; omega
  simp only [_reproject_block_impl, hdrop, List.append_nil]
  by_cases hc : (src.shape.take axis ++ [dgb.ny, dgb.nx]).length = 2 ∨
      ((src.shape.take axis ++ [dgb.ny, dgb.nx]).length = 3 ∧ axis = 1)
  · rw [if_pos hc]
    rcases hc with hc | ⟨hc, rfl⟩
    · have hax0 : axis = 0 := by
        simp only [List.length_append, htl, List.length_cons,
          List.length_nil] at hc
        omega
      subst hax0
      have h2 : ∃ a b, src.shape = [a, b] := by
        match hm : src.shape with
        | [a, b] => exact ⟨a, b, rfl⟩
        | [] | [_] | _ :: _ :: _ :: _ =>
          rw [hm] at h; simp at h
      obtain ⟨a, b, hm⟩ := h2
      rw [rio_reproject_shape_2d hm]
      rw [hm]
      rfl
    · have h3 : ∃ a b c, src.shape = [a, b, c] := by
        match hm : src.shape with
        | [a, b, c] => exact ⟨a, b, c, rfl⟩
        | [] | [_] | [_, _] | _ :: _ :: _ :: _ :: _ =>
          rw [hm] at h; simp at h
      obtain ⟨a, b, c, hm⟩ := h3
      rw [rio_reproject_shape_3d hm, hm]
      rfl
  · rw [if_neg hc, foldl_writeSlice_shape]
    rfl

@[simp] theorem getBlock_shape (a : DaskArray) (bidx : List Nat) :
    (a.getBlock bidx).shape = blockShape a.chunks bidx := rfl

theorem tileBox_ny (t : GeoboxTiles) (r c : Nat) :
    (t.tileBox r c).ny = t.chy.getD r 0 := by
  simp [GeoboxTiles.tileBox, GeoBox.sliceRoi]

theorem tileBox_nx (t : GeoboxTiles) (r c : Nat) :
    (t.tileBox r c).nx = t.chx.getD c 0 := by
  simp [GeoboxTiles.tileBox, GeoBox.sliceRoi]

/-- Dependency resolution: the cropped sub-array registered for an ROI
is found by its structured name, never confused with the source array or
with crops of other ROIs. -/
theorem findDep_crop (src : DaskArray) (f : Nat × Nat → Roi)
    (tilesL : List (Nat × Nat)) (axis : Nat) (r : Roi)
    (hmem : ∃ t ∈ tilesL, f t = r) :
    findDep (src :: tilesL.map (fun t => crop_2d_dense src (f t) axis))
      (GName.crop src.name r.y0 r.y1 r.x0 r.x1) =
      some (crop_2d_dense src r axis) := by
  unfold findDep
  rw [List.find?_cons_of_neg _ (by
    simp only [decide_eq_true_eq]
    intro hEq
    exact GName.crop_ne_base src.name r.y0 r.y1 r.x0 r.x1 hEq.symm)]
  induction tilesL with
  | nil => simp at hmem
  | cons t ts ih =>
    rcases hmem with ⟨t', ht', hf⟩
    rcases List.mem_cons.mp ht' with rfl | ht'
    · rw [List.map_cons, List.find?_cons_of_pos _ (by simp [crop_2d_dense, hf])]
      rw [hf]
    · by_cases hft : f t = r
      · rw [List.map_cons, List.find?_cons_of_pos _ (by simp [crop_2d_dense, hft])]
        rw [hft]
      · rw [List.map_cons, List.find?_cons_of_neg _ (by
          simp only [crop_2d_dense, decide_eq_true_eq, GName.crop.injEq]
          rintro ⟨-, h1, h2, h3, h4⟩
          exact hft (Roi.ext h1 h2 h3 h4)), ih ⟨t', ht', hf⟩]

/-- The unique entry found at a present key. -/
theorem find?_entry_of_countP_pos {l : List (GKey × Task)} {key : GKey}
    (h : 0 < l.countP (fun e => e.1 = key)) :
    ∃ en, l.find? (fun e => e.1 = key) = some en ∧ en ∈ l ∧ en.1 = key := by
  have hex := List.countP_pos.mp h
  have hsome : (l.find? (fun e => e.1 = key)).isSome = true :=
    List.find?_isSome.mpr hex
  obtain ⟨en, hen⟩ := Option.isSome_iff_exists.mp hsome
  refine ⟨en, hen, List.mem_of_find?_eq_some hen, ?_⟩
  have hp := List.find?_some hen
  exact of_decide_eq_true hp

/-- The per-axis chunk sums of the destination chunking recover the
destination shape. -/
theorem dstChunks_sum (src : DaskArray) (dgb : GeoBox) (cy cx axis : Nat) :
    (dstChunksOf src dgb cy cx axis).map List.sum =
      src.shape.take axis ++ [dgb.ny, dgb.nx] ++ src.shape.drop (axis + 2) := by
  simp [dstChunksOf, DaskArray.shape, List.map_take, List.map_drop]

/-- Block indices located for an in-range global index are in the
shape-in-blocks space. -/
theorem locate_blocks_mem {chunks : List (List Nat)} {g : List Nat}
    (h : List.Forall₂ (· < ·) g (chunks.map List.sum)) :
    ((List.zipWith locate chunks g).map Prod.fst) ∈
      ndindex (chunks.map List.length) := by
  rw [mem_ndindex]
  induction chunks generalizing g with
  | nil => cases h; simp
  | cons c cs ih =>
    match g, h with
    | gz :: gt, List.Forall₂.cons hg ht =>
      exact List.Forall₂.cons (locate_spec hg).2.2 (ih ht)

/-! ### Geometry: tiles live inside the base footprint -/

theorem sum_take_getD_le (l : List Nat) (r : Nat) (hr : r < l.length) :
    (l.take r).sum + l.getD r 0 ≤ l.sum := by
  have h1 := List.sum_take_add_sum_drop l r
  have h2 : l.drop r = l[r] :: l.drop (r + 1) := List.drop_eq_getElem_cons hr
  have h3 : l.getD r 0 = l[r] := List.getD_eq_getElem l 0 hr
  have h4 : l[r] ≤ (l.drop r).sum := by
    rw [h2, List.sum_cons]; omega
  omega

/-- A sub-segment `[a, b] ⊆ [0, N]` of pixel rows maps into the base
world interval, whatever the sign of the resolution. -/
theorem seg_in (ty ry a b N : ℚ) (h0 : 0 ≤ a) (hab : a ≤ b) (hbN : b ≤ N) :
    min ty (ty + N * ry) ≤ min (ty + a * ry) (ty + b * ry) ∧
      max (ty + a * ry) (ty + b * ry) ≤ max ty (ty + N * ry) := by
  rcases le_total 0 ry with h | h
  · have h1 : 0 ≤ a * ry := mul_nonneg h0 h
    have h2 : a * ry ≤ b * ry := mul_le_mul_of_nonneg_right hab h
    have h3 : b * ry ≤ N * ry := mul_le_mul_of_nonneg_right hbN h
    constructor
    · apply le_min
      · exact le_trans (min_le_left _ _) (by linarith)
      · exact le_trans (min_le_left _ _) (by linarith)
    · apply max_le
      · exact le_trans (by linarith) (le_max_right _ _)
      · exact le_trans (by linarith) (le_max_right _ _)
  · have h1 : a * ry ≤ 0 := mul_nonpos_of_nonneg_of_nonpos h0 h
    have h2 : b * ry ≤ a * ry := mul_le_mul_of_nonpos_right hab h
    have h3 : N * ry ≤ b * ry := mul_le_mul_of_nonpos_right hbN h
    constructor
    · apply le_min
      · exact le_trans (min_le_right _ _) (by linarith)
      · exact le_trans (min_le_right _ _) (by linarith)
    · apply max_le
      · exact le_trans (by linarith) (le_max_left _ _)
      · exact le_trans (by linarith) (le_max_left _ _)

/-- Every in-range tile's extent sits inside the base GeoBox extent. -/
theorem tileBox_extent_sub (g : GeoBox) (cy cx r c : Nat)
    (hr : r < (unpack_chunksize cy g.ny).length)
    (hc : c < (unpack_chunksize cx g.nx).length) :
    (g.extent.y.lo ≤ ((mkGeoboxTiles g cy cx).tileBox r c).extent.y.lo ∧
      ((mkGeoboxTiles g cy cx).tileBox r c).extent.y.hi ≤ g.extent.y.hi) ∧
    (g.extent.x.lo ≤ ((mkGeoboxTiles g cy cx).tileBox r c).extent.x.lo ∧
      ((mkGeoboxTiles g cy cx).tileBox r c).extent.x.hi ≤ g.extent.x.hi) := by
  have hy := sum_take_getD_le (unpack_chunksize cy g.ny) r hr
  have hx := sum_take_getD_le (unpack_chunksize cx g.nx) c hc
  rw [unpack_chunksize_sum] at hy hx
  set sy := ((unpack_chunksize cy g.ny).take r).sum with hsy
  set ny := (unpack_chunksize cy g.ny).getD r 0 with hny
  set sx := ((unpack_chunksize cx g.nx).take c).sum with hsx
  set nx := (unpack_chunksize cx g.nx).getD c 0 with hnx
  have e1 : ((mkGeoboxTiles g cy cx).tileBox r c).extent =
      { y := ⟨min (g.ty + sy * g.ry) (g.ty + sy * g.ry + ny * g.ry),
              max (g.ty + sy * g.ry) (g.ty + sy * g.ry + ny * g.ry)⟩
        x := ⟨min (g.tx + sx * g.rx) (g.tx + sx * g.rx + nx * g.rx),
              max (g.tx + sx * g.rx) (g.tx + sx * g.rx + nx * g.rx)⟩ } := by
    simp only [mkGeoboxTiles, GeoboxTiles.tileBox, GeoBox.sliceRoi, GeoBox.extent,
      ← hsy, ← hny, ← hsx, ← hnx]
    norm_num
  rw [e1]
  have hyq : (sy : ℚ) + ny ≤ (g.ny : ℚ) := by exact_mod_cast hy
  have hxq : (sx : ℚ) + nx ≤ (g.nx : ℚ) := by exact_mod_cast hx
  have gy := seg_in g.ty g.ry sy (sy + ny) g.ny (by positivity) (by linarith) hyq
  have gx := seg_in g.tx g.rx sx (sx + nx) g.nx (by positivity) (by linarith) hxq
  simp only [GeoBox.extent]
  constructor
  · constructor
    · refine le_trans gy.1 (le_of_eq ?_)
      congr 1 <;> ring
    · refine le_trans (le_of_eq ?_) gy.2
      congr 1 <;> ring
  · constructor
    · refine le_trans gx.1 (le_of_eq ?_)
      congr 1 <;> ring
    · refine le_trans (le_of_eq ?_) gx.2
      congr 1 <;> ring

theorem rect_intersects_of_sub {a a' b : Rect}
    (hy1 : a.y.lo ≤ a'.y.lo) (hy2 : a'.y.hi ≤ a.y.hi)
    (hx1 : a.x.lo ≤ a'.x.lo) (hx2 : a'.x.hi ≤ a.x.hi)
    (h : a'.intersects b = true) : a.intersects b = true := by
  simp only [Rect.intersects, Ival.intersects, Bool.and_eq_true,
    decide_eq_true_eq] at h ⊢
  obtain ⟨⟨h1, h2⟩, h3, h4⟩ := h
  exact ⟨⟨le_trans hy1 h1, le_trans h2 hy2⟩, le_trans hx1 h3, le_trans h4 hx2⟩

/-- A destination whose footprint misses the source footprint has no
tile intersecting it. -/
theorem tiles_nil_of_disjoint (sgb dgb : GeoBox) (cy cx : Nat)
    (hdis : dgb.extent.intersects sgb.extent = false) :
    (mkGeoboxTiles dgb cy cx).tiles sgb.extent = [] := by
  rw [List.eq_nil_iff_forall_not_mem]
  intro rc hmem
  obtain ⟨hr, hc, hint⟩ := mem_tiles.mp hmem
  obtain ⟨⟨hy1, hy2⟩, hx1, hx2⟩ := tileBox_extent_sub dgb cy cx rc.1 rc.2 hr hc
  have := rect_intersects_of_sub hy1 hy2 hx1 hx2 hint
  rw [hdis] at this
  exact Bool.false_ne_true this

/-- Concrete 2×2 single-chunk source array used by the witnesses. -/
def srcW : DaskArray :=
  ⟨GName.plain "src", [[2], [2]], "int16",
   fun ix => (ix.getD 0 0 : ℤ) * 2 + (ix.getD 1 0 : ℤ)⟩

/-- Concrete 2×2 GeoBox at the origin with unit pixels. -/
def gW : GeoBox := ⟨2, 2, 1, 1, 0, 0, 32600⟩

/-- Concrete 2×2 GeoBox far away from `gW` (disjoint footprints). -/
def gFarW : GeoBox := ⟨2, 2, 1, 1, 100, 100, 32600⟩

theorem valAt_of_find? (r : ReprojResult) (g : List Nat) (en : GKey × Task)
    (h : r.dsk.find? (fun e =>
      e.1 = (r.name, (List.zipWith locate r.chunks g).map Prod.fst)) = some en) :
    r.valAt g = (taskBlock r.deps en.2).get
      ((List.zipWith locate r.chunks g).map Prod.snd) := by
  rw [show r.valAt g =
    (r.blockAt ((List.zipWith locate r.chunks g).map Prod.fst)).get
      ((List.zipWith locate r.chunks g).map Prod.snd) from rfl]
  unfold ReprojResult.blockAt
  rw [h]

/-- Every entry of the assembled graph is a first-pass resample entry or
an explicit constant-fill entry. -/
theorem graph_entry_forms {src : DaskArray} {sgb dgb : GeoBox} {cy cx : Nat}
    {res : String} {sn dn : Option ℤ} {axis : Nat} {nm : GName}
    {e : GKey × Task}
    (h : e ∈ dsk0Of src sgb dgb cy cx res sn dn axis nm ++
      fillsOf src sgb dgb cy cx res sn dn axis nm) :
    (∃ idx, idx ∈ (mkGeoboxTiles dgb cy cx).tiles sgb.extent ∧
      ∃ ii1, ii1 ∈ ndindex (dims1Of src axis) ∧
        e = resampleEntryAt src sgb dgb cy cx res sn dn axis nm idx ii1) ∨
    ∃ idx, idx ∈ ndindex ((dstChunksOf src dgb cy cx axis).map List.length) ∧
      e = ((nm, idx),
        Task.fill (blockShape (dstChunksOf src dgb cy cx axis) idx) (dn.getD 0)) := by
  rcases List.mem_append.mp h with h0 | h0
  · left
    rcases List.mem_flatMap.mp h0 with ⟨idx, hidx, hmem⟩
    rcases List.mem_map.mp hmem with ⟨ii1, hii1, he⟩
    exact ⟨idx, hidx, ii1, hii1, he.symm⟩
  · right
    simp only [fillsOf] at h0
    rcases List.mem_map.mp h0 with ⟨idx, hidx, he⟩
    exact ⟨idx, (List.mem_filter.mp hidx).1, he.symm⟩

/-- C3: when the destination footprint does not intersect the source
footprint at all, every task of the returned graph is a constant-fill
task of the fill value (resolved destination nodata, `0` when unset) —
the resample primitive appears nowhere in the graph — and every pixel of
the materialised output equals that fill value. -/
theorem dask_reproject_disjoint_all_fill
    (src : DaskArray) (sgb dgb : GeoBox) (res : String)
    (chunks : Option (Nat × Nat)) (sn dn : Option ℤ) (axis : Nat)
    (nm : String) (tk : Nat) (r : ReprojResult)
    (hs : (src.shape.drop axis).take 2 = sgb.shape)
    (ht : src.chunks.drop (axis + 2) = [])
    (hr : dask_reproject src sgb dgb res chunks sn dn axis nm tk = .ok r)
    (hdis : dgb.extent.intersects sgb.extent = false) :
    (∀ e ∈ r.dsk, e.2 = Task.fill (blockShape r.chunks e.1.2)
        ((dn.orElse fun _ => sn).getD 0)) ∧
    ∀ g : List Nat, List.Forall₂ (· < ·) g r.shape →
      r.valAt g = (dn.orElse fun _ => sn).getD 0 := by
  have hlen := chunks_len_of_valid hs ht
  have hax : axis ≤ src.chunks.length := by omega
  rw [dask_reproject_ok src sgb dgb res chunks sn dn axis nm tk hs ht] at hr
  obtain rfl := Except.ok.inj hr
  obtain ⟨cy, cx, hcc⟩ : ∃ cy cx, resolvedChunks src chunks axis = [cy, cx] :=
    ⟨_, _, resolvedChunks_eq_pair (by omega)⟩
  rw [hcc, reprojectGraph_eq src sgb dgb res cy cx sn _ axis nm tk hax]
  have hnil := tiles_nil_of_disjoint sgb dgb cy cx hdis
  have hdsk0 : dsk0Of src sgb dgb cy cx res sn (dn.orElse fun _ => sn) axis
      (GName.str nm tk) = [] := by
    simp [dsk0Of, hnil]
  have hfillfact : ∀ e ∈ dsk0Of src sgb dgb cy cx res sn
      (dn.orElse fun _ => sn) axis (GName.str nm tk) ++
      fillsOf src sgb dgb cy cx res sn (dn.orElse fun _ => sn) axis
        (GName.str nm tk),
      e.2 = Task.fill (blockShape (dstChunksOf src dgb cy cx axis) e.1.2)
        ((dn.orElse fun _ => sn).getD 0) := by
    intro e he
    rcases graph_entry_forms he with ⟨idx, -, ii1, -, rfl⟩ | ⟨idx, -, rfl⟩
    · rw [hdsk0, List.nil_append] at he
      simp only [fillsOf] at he
      rcases List.mem_map.mp he with ⟨idx', -, he'⟩
      have h2 := congrArg Prod.snd he'
      simp only [resampleEntryAt] at h2
      exact absurd h2 (by simp)
    · rfl
  refine ⟨hfillfact, ?_⟩
  intro g hg
  have hsum : (dstChunksOf src dgb cy cx axis).map List.sum =
      src.shape.take axis ++ [dgb.ny, dgb.nx] ++ src.shape.drop (axis + 2) :=
    dstChunks_sum src dgb cy cx axis
  have hg' : List.Forall₂ (· < ·) g
      ((dstChunksOf src dgb cy cx axis).map List.sum) := by
    rw [hsum]; exact hg
  have hbl := locate_blocks_mem hg'
  have hpos : 0 < (dsk0Of src sgb dgb cy cx res sn (dn.orElse fun _ => sn) axis
      (GName.str nm tk) ++ fillsOf src sgb dgb cy cx res sn
        (dn.orElse fun _ => sn) axis (GName.str nm tk)).countP
      (fun e => e.1 = (GName.str nm tk,
        (List.zipWith locate (dstChunksOf src dgb cy cx axis) g).map Prod.fst)) := by
    rw [graph_key_count src sgb dgb cy cx res sn _ axis _ hlen, if_pos hbl]
    omega
  obtain ⟨en, hfind, hen, -⟩ := find?_entry_of_countP_pos hpos
  rw [valAt_of_find? _ g en hfind, hfillfact en hen]
  rfl

theorem dask_reproject_disjoint_all_fill_witness :
    (reprojectGraph srcW gW gFarW "nearest"
      (resolvedChunks srcW (some (2, 2)) 0) none
      (Option.orElse none fun _ => none) 0 "reproject" 0).valAt [0, 1] =
      ((Option.orElse none fun _ => none : Option ℤ).getD 0) :=
  (dask_reproject_disjoint_all_fill srcW gW gFarW "nearest" (some (2, 2))
    none none 0 "reproject" 0 _ (by decide) rfl
    (dask_reproject_ok _ _ _ _ _ _ _ _ _ _ (by decide) rfl)
    (by
      simp only [gFarW, gW, GeoBox.extent, Rect.intersects, Ival.intersects]
      norm_num)).2 [0, 1] (by decide)

/-- C4: the destination nodata resolves to the explicit argument or, when
unset, the source nodata; every resample task carries exactly that
resolved value, and every other key carries a constant-fill task whose
value is the resolved nodata with `0` as the final fallback — no block
is ever left unregistered or uninitialised. -/
theorem dask_reproject_nodata_defaults
    (src : DaskArray) (sgb dgb : GeoBox) (res : String)
    (chunks : Option (Nat × Nat)) (sn dn : Option ℤ) (axis : Nat)
    (nm : String) (tk : Nat) (r : ReprojResult)
    (hs : (src.shape.drop axis).take 2 = sgb.shape)
    (ht : src.chunks.drop (axis + 2) = [])
    (hr : dask_reproject src sgb dgb res chunks sn dn axis nm tk = .ok r) :
    (dn = none → dn.orElse (fun _ => sn) = sn) ∧
    (dn = none → sn = none → ((dn.orElse fun _ => sn).getD 0 : ℤ) = 0) ∧
    ∀ e ∈ r.dsk,
      (∃ nmc key sg dg, e.2 =
        Task.resample nmc key sg dg res sn (dn.orElse fun _ => sn) axis) ∨
      e.2 = Task.fill (blockShape r.chunks e.1.2)
        ((dn.orElse fun _ => sn).getD 0) := by
  have hlen := chunks_len_of_valid hs ht
  have hax : axis ≤ src.chunks.length := by omega
  rw [dask_reproject_ok src sgb dgb res chunks sn dn axis nm tk hs ht] at hr
  obtain rfl := Except.ok.inj hr
  obtain ⟨cy, cx, hcc⟩ : ∃ cy cx, resolvedChunks src chunks axis = [cy, cx] :=
    ⟨_, _, resolvedChunks_eq_pair (by omega)⟩
  rw [hcc, reprojectGraph_eq src sgb dgb res cy cx sn _ axis nm tk hax]
  refine ⟨fun h => by simp [h, Option.orElse], fun h h' => by simp [h, h', Option.orElse], ?_⟩
  intro e he
  rcases graph_entry_forms he with ⟨idx, -, ii1, -, rfl⟩ | ⟨idx, -, rfl⟩
  · exact Or.inl ⟨_, _, _, _, rfl⟩
  · exact Or.inr rfl

theorem dask_reproject_nodata_defaults_witness :
    (none = (none : Option ℤ) →
      (Option.orElse none fun _ => (some 7 : Option ℤ)) = some 7) ∧
    (none = (none : Option ℤ) → (some 7 : Option ℤ) = none →
      ((Option.orElse none fun _ => (some 7 : Option ℤ)).getD 0 : ℤ) = 0) ∧
    ∀ e ∈ (reprojectGraph srcW gW gFarW "nearest"
        (resolvedChunks srcW (some (2, 2)) 0) (some 7)
        (Option.orElse none fun _ => some 7) 0 "reproject" 0).dsk,
      (∃ nmc key sg dg, e.2 =
        Task.resample nmc key sg dg "nearest" (some 7)
          (Option.orElse none fun _ => some 7) 0) ∨
      e.2 = Task.fill (blockShape (reprojectGraph srcW gW gFarW "nearest"
          (resolvedChunks srcW (some (2, 2)) 0) (some 7)
          (Option.orElse none fun _ => some 7) 0 "reproject" 0).chunks e.1.2)
        ((Option.orElse none fun _ => (some 7 : Option ℤ)).getD 0) :=
  dask_reproject_nodata_defaults srcW gW gFarW "nearest" (some (2, 2))
    (some 7) none 0 "reproject" 0 _ (by decide) rfl
    (dask_reproject_ok _ _ _ _ _ _ _ _ _ _ (by decide) rfl)

theorem cropAt_eta (src : DaskArray) (sgb dgb : GeoBox) (cy cx axis : Nat) :
    cropAt src sgb dgb cy cx axis =
      fun t => crop_2d_dense src (roiAt sgb dgb cy cx t) axis := rfl

/-- The materialised shape of a registered resample task: the prefix
block extents followed by the tile's pixel shape — governed solely by
the destination tiling and chunk request. -/
theorem resample_block_shape
    (src : DaskArray) (sgb dgb : GeoBox) (cy cx : Nat) (res : String)
    (sn dn : Option ℤ) (axis : Nat) (nm : GName)
    (hlen : src.chunks.length = axis + 2)
    (idx' : Nat × Nat)
    (hidx' : idx' ∈ (mkGeoboxTiles dgb cy cx).tiles sgb.extent)
    (ii1 : List Nat) (hii1 : ii1 ∈ ndindex (dims1Of src axis)) :
    (taskBlock (src :: ((mkGeoboxTiles dgb cy cx).tiles sgb.extent).map
        (cropAt src sgb dgb cy cx axis))
      (resampleEntryAt src sgb dgb cy cx res sn dn axis nm idx' ii1).2).shape =
      blockShape (dstChunksOf src dgb cy cx axis) (ii1 ++ [idx'.1, idx'.2]) := by
  have hii1len : ii1.length = axis := by
    rw [length_of_mem_ndindex hii1]
    simp only [dims1Of, List.length_map, List.length_take]
    omega
  have hdrop : src.chunks.drop (axis + 2) = [] :=
    List.drop_eq_nil_of_le (by omega)
  have htake : (src.chunks.take axis).length = axis := by
    simp only [List.length_take]; omega
  set roi := roiAt sgb dgb cy cx idx' with hroi
  have hfind : findDep (src :: ((mkGeoboxTiles dgb cy cx).tiles sgb.extent).map
      (cropAt src sgb dgb cy cx axis))
      (GName.crop src.name roi.y0 roi.y1 roi.x0 roi.x1) =
      some (crop_2d_dense src roi axis) := by
    rw [cropAt_eta]
    exact findDep_crop src (roiAt sgb dgb cy cx) _ axis roi ⟨idx', hidx', rfl⟩
  show (taskBlock _ (Task.resample (cropAt src sgb dgb cy cx axis idx').name
      (ii1 ++ [0, 0]) (sgb.sliceRoi roi) (tileBoxAt dgb cy cx idx')
      res sn dn axis)).shape = _
  unfold taskBlock
  dsimp only
  rw [show (cropAt src sgb dgb cy cx axis idx').name =
    GName.crop src.name roi.y0 roi.y1 roi.x0 roi.x1 from rfl, hfind]
  dsimp only
  have hbshape : ((crop_2d_dense src roi axis).getBlock (ii1 ++ [0, 0])).shape =
      blockShape (src.chunks.take axis) ii1 ++ [roi.y1 - roi.y0, roi.x1 - roi.x0] := by
    rw [getBlock_shape]
    show blockShape (src.chunks.take axis ++ [[roi.y1 - roi.y0], [roi.x1 - roi.x0]] ++
      src.chunks.drop (axis + 2)) (ii1 ++ [0, 0]) = _
    rw [hdrop, List.append_nil]
    unfold blockShape
    rw [List.zipWith_append _ _ _ _ _ (by rw [htake, hii1len])]
    rfl
  have hblen : ((crop_2d_dense src roi axis).getBlock (ii1 ++ [0, 0])).shape.length =
      axis + 2 := by
    rw [hbshape]
    simp only [List.length_append, List.length_cons, List.length_nil, blockShape,
      List.length_zipWith, htake, hii1len]
    omega
  rw [reproject_block_impl_shape _ _ _ _ _ _ _ hblen, hbshape]
  have htk : (blockShape (src.chunks.take axis) ii1 ++
      [roi.y1 - roi.y0, roi.x1 - roi.x0]).take axis =
      blockShape (src.chunks.take axis) ii1 := by
    rw [List.take_append_of_le_length (by
      simp only [blockShape, List.length_zipWith, htake, hii1len]; omega),
      List.take_of_length_le (by
        simp only [blockShape, List.length_zipWith, htake, hii1len]; omega)]
  rw [htk]
  show blockShape (src.chunks.take axis) ii1 ++
      [(tileBoxAt dgb cy cx idx').ny, (tileBoxAt dgb cy cx idx').nx] = _
  unfold blockShape
  rw [show dstChunksOf src dgb cy cx axis = src.chunks.take axis ++
    ([unpack_chunksize cy dgb.ny, unpack_chunksize cx dgb.nx] ++
      src.chunks.drop (axis + 2)) from by simp [dstChunksOf], hdrop,
    List.append_nil]
  rw [List.zipWith_append _ _ _ _ _ (by rw [htake, hii1len])]
  congr 1
  show [(tileBoxAt dgb cy cx idx').ny, (tileBoxAt dgb cy cx idx').nx] = _
  rw [show tileBoxAt dgb cy cx idx' =
    (mkGeoboxTiles dgb cy cx).tileBox idx'.1 idx'.2 from rfl,
    tileBox_ny, tileBox_nx]
  rfl

theorem resolvedChunks_none (src : DaskArray) (axis : Nat)
    (h : axis + 2 ≤ src.chunks.length) :
    resolvedChunks src none axis =
      [src.chunksize.getD axis 0, src.chunksize.getD (axis + 1) 0] := by
  have hl : 2 ≤ (src.chunksize.drop axis).length := by
    simp only [List.length_drop, DaskArray.chunksize, List.length_map]
    omega
  match hm : src.chunksize.drop axis with
  | [] => rw [hm] at hl; simp at hl
  | [a] => rw [hm] at hl; simp at hl
  | a :: b :: t =>
    have ha : src.chunksize.getD axis 0 = a := by
      rw [List.getD_eq_getElem?_getD, show axis = axis + 0 from rfl,
        ← List.getElem?_drop, hm]
      simp
    have hb : src.chunksize.getD (axis + 1) 0 = b := by
      rw [List.getD_eq_getElem?_getD, ← List.getElem?_drop, hm]
      simp
    simp only [resolvedChunks, hm, ha, hb]
    simp

/-- C5: the returned array keeps the prefix axes of the source, replaces
row/col by the destination grid's pixel shape and has no trailing axes;
its chunking replaces the row/col chunks by the requested tile sizes
(defaulting to the source's row/col chunk size when `chunks` is `None`)
and keeps the other axes' chunks; the dtype is the source's; and every
output block's pixel shape is dictated by the destination chunking
alone, whether or not source data overlaps it. -/
theorem dask_reproject_output_metadata
    (src : DaskArray) (sgb dgb : GeoBox) (res : String)
    (chunks : Option (Nat × Nat)) (sn dn : Option ℤ) (axis : Nat)
    (nm : String) (tk : Nat) (r : ReprojResult)
    (hs : (src.shape.drop axis).take 2 = sgb.shape)
    (ht : src.chunks.drop (axis + 2) = [])
    (hr : dask_reproject src sgb dgb res chunks sn dn axis nm tk = .ok r) :
    r.shape = src.shape.take axis ++ [dgb.ny, dgb.nx] ++
      src.shape.drop (axis + 2) ∧
    r.dtype = src.dtype ∧
    r.chunks = src.chunks.take axis ++
      [unpack_chunksize ((resolvedChunks src chunks axis).getD 0 0) dgb.ny,
       unpack_chunksize ((resolvedChunks src chunks axis).getD 1 0) dgb.nx] ++
      src.chunks.drop (axis + 2) ∧
    (chunks = none → resolvedChunks src chunks axis =
      [src.chunksize.getD axis 0, src.chunksize.getD (axis + 1) 0]) ∧
    ∀ idx ∈ ndindex (r.chunks.map List.length),
      (r.blockAt idx).shape = blockShape r.chunks idx := by
  have hlen := chunks_len_of_valid hs ht
  have hax : axis ≤ src.chunks.length := by omega
  rw [dask_reproject_ok src sgb dgb res chunks sn dn axis nm tk hs ht] at hr
  obtain rfl := Except.ok.inj hr
  obtain ⟨cy, cx, hcc⟩ : ∃ cy cx, resolvedChunks src chunks axis = [cy, cx] :=
    ⟨_, _, resolvedChunks_eq_pair (by omega)⟩
  rw [hcc, reprojectGraph_eq src sgb dgb res cy cx sn _ axis nm tk hax]
  refine ⟨rfl, rfl, by simp [hcc, dstChunksOf], ?_, ?_⟩
  · intro hnone
    subst hnone
    rw [← hcc]
    exact resolvedChunks_none src axis (by omega)
  · intro idx hidx
    have hpos : 0 < (dsk0Of src sgb dgb cy cx res sn (dn.orElse fun _ => sn)
        axis (GName.str nm tk) ++ fillsOf src sgb dgb cy cx res sn
          (dn.orElse fun _ => sn) axis (GName.str nm tk)).countP
        (fun e => e.1 = (GName.str nm tk, idx)) := by
      rw [graph_key_count src sgb dgb cy cx res sn _ axis _ hlen, if_pos hidx]
      omega
    obtain ⟨en, hfind, hen, hkey⟩ := find?_entry_of_countP_pos hpos
    have hblock : ReprojResult.blockAt
        { dsk := dsk0Of src sgb dgb cy cx res sn (dn.orElse fun _ => sn) axis
            (GName.str nm tk) ++ fillsOf src sgb dgb cy cx res sn
            (dn.orElse fun _ => sn) axis (GName.str nm tk)
          name := GName.str nm tk
          chunks := dstChunksOf src dgb cy cx axis
          dtype := src.dtype
          shape := src.shape.take axis ++ [dgb.ny, dgb.nx] ++
            src.shape.drop (axis + 2)
          deps := src :: ((mkGeoboxTiles dgb cy cx).tiles sgb.extent).map
            (cropAt src sgb dgb cy cx axis) } idx =
        taskBlock (src :: ((mkGeoboxTiles dgb cy cx).tiles sgb.extent).map
          (cropAt src sgb dgb cy cx axis)) en.2 := by
      unfold ReprojResult.blockAt
      rw [hfind]
    rw [hblock]
    rcases graph_entry_forms hen with ⟨idx', hidx', ii1, hii1, he⟩ |
      ⟨idx2, -, he⟩
    · have hkey2 : idx = ii1 ++ [idx'.1, idx'.2] := by
        rw [he] at hkey
        exact (congrArg Prod.snd hkey).symm
      subst hkey2
      rw [he]
      exact resample_block_shape src sgb dgb cy cx res sn _ axis _ hlen idx'
        hidx' ii1 hii1
    · have hkey2 : idx = idx2 := by
        rw [he] at hkey
        exact (congrArg Prod.snd hkey).symm
      subst hkey2
      rw [he]
      rfl

theorem dask_reproject_output_metadata_witness :
    ((reprojectGraph srcW gW gW "nearest"
        (resolvedChunks srcW (some (1, 2)) 0) none
        (Option.orElse none fun _ => none) 0 "reproject" 0).shape =
      srcW.shape.take 0 ++ [gW.ny, gW.nx] ++ srcW.shape.drop 2) ∧
    ((reprojectGraph srcW gW gW "nearest"
        (resolvedChunks srcW (some (1, 2)) 0) none
        (Option.orElse none fun _ => none) 0 "reproject" 0).dtype =
      srcW.dtype) :=
  ⟨(dask_reproject_output_metadata srcW gW gW "nearest" (some (1, 2)) none
      none 0 "reproject" 0 _ (by decide) rfl
      (dask_reproject_ok _ _ _ _ _ _ _ _ _ _ (by decide) rfl)).1,
   (dask_reproject_output_metadata srcW gW gW "nearest" (some (1, 2)) none
      none 0 "reproject" 0 _ (by decide) rfl
      (dask_reproject_ok _ _ _ _ _ _ _ _ _ _ (by decide) rfl)).2.1⟩

/-! ### Per-slice behaviour of the block resample wrapper -/

/-- A fold of slice writes leaves slices it never writes untouched. -/
theorem foldl_writeSlice_get_notmem {n : Nat} (xs : List (List Nat))
    (hlen : ∀ x ∈ xs, x.length = n) (f : List Nat → NDArr) (d : NDArr)
    (p : List Nat) (hp : p ∉ xs) (hplen : p.length = n) (q : List Nat) :
    (xs.foldl (fun d pp => d.writeSlice pp (f pp)) d).get (p ++ q) =
      d.get (p ++ q) := by
  induction xs generalizing d with
  | nil => rfl
  | cons x xs ih =>
    rw [List.foldl_cons, ih (fun y hy => hlen y (List.mem_cons_of_mem x hy))
      _ (fun h => hp (List.mem_cons_of_mem x h))]
    unfold NDArr.writeSlice
    dsimp only
    have hxp : x ≠ p := fun h => hp (h ▸ List.mem_cons_self x xs)
    have hxlen : x.length = n := hlen x (List.mem_cons_self x xs)
    have htk : (p ++ q).take x.length = p := by
      rw [hxlen, ← hplen, List.take_left]
    rw [htk, if_neg (fun h => hxp h.symm)]

/-- A fold of slice writes over distinct equal-length prefixes realises
each written slice exactly. -/
theorem foldl_writeSlice_get {n : Nat} (xs : List (List Nat))
    (hnd : xs.Nodup) (hlen : ∀ x ∈ xs, x.length = n)
    (f : List Nat → NDArr) (d : NDArr)
    (p : List Nat) (hp : p ∈ xs) (q : List Nat) :
    (xs.foldl (fun d pp => d.writeSlice pp (f pp)) d).get (p ++ q) =
      (f p).get q := by
  induction xs generalizing d with
  | nil => simp at hp
  | cons x xs ih =>
    rcases List.nodup_cons.mp hnd with ⟨hx, hnd'⟩
    rw [List.foldl_cons]
    rcases List.mem_cons.mp hp with rfl | hp'
    · rw [foldl_writeSlice_get_notmem xs
        (fun y hy => hlen y (List.mem_cons_of_mem p hy)) f _ p hx
        (hlen p (List.mem_cons_self p xs)) q]
      unfold NDArr.writeSlice
      dsimp only
      rw [if_pos (List.take_left p q), List.drop_left]
    · exact ih hnd' (fun y hy => hlen y (List.mem_cons_of_mem x hy)) _ hp'

/-- Slice behaviour of `_reproject_block_impl` for any axis within the
rank: every full-prefix slice of the output is the 2-D primitive applied
to the matching source slice. -/
theorem impl_get_slice
    (src : NDArr) (sgb dgb : GeoBox) (res : String) (sn dn : Option ℤ)
    (axis : Nat) (hlen : src.shape.length = axis + 2)
    (p : List Nat) (hp : p ∈ ndindex (src.shape.take axis)) (q : List Nat) :
    (_reproject_block_impl src sgb dgb res sn dn axis).get (p ++ q) =
      (rio_reproject (src.slice p) sgb dgb res sn dn).get q := by
  have hplen : p.length = axis := by
    rw [length_of_mem_ndindex hp, List.length_take]
    omega
  have hdrop : src.shape.drop (axis + 2) = [] :=
    List.drop_eq_nil_of_le (by omega)
  have htake : (src.shape.take axis).length = axis := by
    simp only [List.length_take]; omega
  by_cases hzero : axis = 0
  · subst hzero
    have hp0 : p = [] := List.eq_nil_of_length_eq_zero hplen
    subst hp0
    have hcond : (src.shape.take 0 ++ [dgb.ny, dgb.nx] ++
        src.shape.drop (0 + 2)).length = 2 ∨
        ((src.shape.take 0 ++ [dgb.ny, dgb.nx] ++
          src.shape.drop (0 + 2)).length = 3 ∧ 0 = 1) := by
      left
      rw [hdrop]
      rfl
    rw [show _reproject_block_impl src sgb dgb res sn dn 0 =
      rio_reproject src sgb dgb res sn dn from by
        unfold _reproject_block_impl
        rw [if_pos hcond]]
    rfl
  by_cases hone : axis = 1
  · subst hone
    have h3 : ∃ a b c, src.shape = [a, b, c] := by
      match hm : src.shape with
      | [a, b, c] => exact ⟨a, b, c, rfl⟩
      | [] | [_] | [_, _] | _ :: _ :: _ :: _ :: _ =>
        rw [hm] at hlen; simp at hlen
    obtain ⟨a, b, c, hm⟩ := h3
    have hcond : (src.shape.take 1 ++ [dgb.ny, dgb.nx] ++
        src.shape.drop 3).length = 2 ∨
        ((src.shape.take 1 ++ [dgb.ny, dgb.nx] ++
          src.shape.drop 3).length = 3 ∧ 1 = 1) := by
      right
      refine ⟨?_, rfl⟩
      rw [hm]
      rfl
    rw [show _reproject_block_impl src sgb dgb res sn dn 1 =
      rio_reproject src sgb dgb res sn dn from by
        unfold _reproject_block_impl
        rw [if_pos hcond]]
    obtain ⟨p0, hp0⟩ : ∃ p0, p = [p0] := by
      match hmp : p with
      | [p0] => exact ⟨p0, rfl⟩
      | [] => simp at hplen
      | p0 :: p1 :: t => simp at hplen
    subst hp0
    have hslice : (src.slice [p0]).shape = [b, c] := by
      unfold NDArr.slice
      rw [hm]
      rfl
    unfold rio_reproject
    rw [hm, hslice]
    rfl
  · have hcond : ¬ ((src.shape.take axis ++ [dgb.ny, dgb.nx] ++
        src.shape.drop (axis + 2)).length = 2 ∨
        ((src.shape.take axis ++ [dgb.ny, dgb.nx] ++
          src.shape.drop (axis + 2)).length = 3 ∧ axis = 1)) := by
      rw [hdrop]
      simp only [List.length_append, List.length_cons, List.length_nil,
        htake]
      omega
    rw [show _reproject_block_impl src sgb dgb res sn dn axis =
      (ndindex (src.shape.take axis)).foldl
        (fun d pp => d.writeSlice pp
          (rio_reproject (src.slice pp) sgb dgb res sn dn))
        (npEmpty (src.shape.take axis ++ [dgb.ny, dgb.nx] ++
          src.shape.drop (axis + 2))) from by
        unfold _reproject_block_impl
        rw [if_neg hcond]]
    exact foldl_writeSlice_get (n := axis) (ndindex (src.shape.take axis))
      (ndindex_nodup _)
      (fun y hy => by rw [length_of_mem_ndindex hy, htake]) _ _ p hp q

/-- C8: for a source block with extra leading axes before row/col (and
no trailing axes), `_reproject_block_impl` resamples independently per
leading-index combination: each slice of the result equals the 2-D
resample primitive applied to the corresponding source slice, and the
output has the row/col extent replaced by the destination shape. -/
theorem reproject_block_impl_per_slice
    (src : NDArr) (sgb dgb : GeoBox) (res : String) (sn dn : Option ℤ)
    (axis : Nat) (hax : 1 ≤ axis) (hlen : src.shape.length = axis + 2)
    (p : List Nat) (hp : p ∈ ndindex (src.shape.take axis)) (q : List Nat) :
    (_reproject_block_impl src sgb dgb res sn dn axis).get (p ++ q) =
      (rio_reproject (src.slice p) sgb dgb res sn dn).get q ∧
    (_reproject_block_impl src sgb dgb res sn dn axis).shape =
      src.shape.take axis ++ [dgb.ny, dgb.nx] :=
  ⟨impl_get_slice src sgb dgb res sn dn axis hlen p hp q,
   reproject_block_impl_shape src sgb dgb res sn dn axis hlen⟩

theorem reproject_block_impl_per_slice_witness :
    (_reproject_block_impl ⟨[2, 2, 2], fun ix =>
        (ix.getD 0 0 : ℤ) * 100 + (ix.getD 1 0 : ℤ) * 2 + (ix.getD 2 0 : ℤ)⟩
      gW gW "nearest" none none 1).get ([1] ++ [0, 1]) =
      (rio_reproject ((⟨[2, 2, 2], fun ix =>
        (ix.getD 0 0 : ℤ) * 100 + (ix.getD 1 0 : ℤ) * 2 + (ix.getD 2 0 : ℤ)⟩ :
          NDArr).slice [1]) gW gW "nearest" none none).get [0, 1] ∧
    (_reproject_block_impl ⟨[2, 2, 2], fun ix =>
        (ix.getD 0 0 : ℤ) * 100 + (ix.getD 1 0 : ℤ) * 2 + (ix.getD 2 0 : ℤ)⟩
      gW gW "nearest" none none 1).shape =
      ([2, 2, 2].take 1 : List Nat) ++ [gW.ny, gW.nx] :=
  reproject_block_impl_per_slice
    ⟨[2, 2, 2], fun ix =>
      (ix.getD 0 0 : ℤ) * 100 + (ix.getD 1 0 : ℤ) * 2 + (ix.getD 2 0 : ℤ)⟩
    gW gW "nearest" none none 1 (by decide) rfl [1] (by decide) [0, 1]

/-! ### Determinism up to the drawn name token -/

/-- The name-free part of a builder result: graph entries keyed by block
index only, destination chunking, dtype, shape and dependencies. -/
def graphSkeleton (r : ReprojResult) :
    List (List Nat × Task) × List (List Nat) × String × List Nat ×
      List DaskArray :=
  (r.dsk.map (fun e => (e.1.2, e.2)), r.chunks, r.dtype, r.shape, r.deps)

/-- Every key of the assembled graph carries the graph name. -/
theorem graph_keys_name {src : DaskArray} {sgb dgb : GeoBox} {cy cx : Nat}
    {res : String} {sn dn : Option ℤ} {axis : Nat} {nm : GName}
    {n' : GName} {k : List Nat}
    (h : (n', k) ∈ (dsk0Of src sgb dgb cy cx res sn dn axis nm ++
      fillsOf src sgb dgb cy cx res sn dn axis nm).map Prod.fst) :
    n' = nm := by
  rcases List.mem_map.mp h with ⟨e, he, hk⟩
  rcases graph_entry_forms he with ⟨idx, -, ii1, -, rfl⟩ | ⟨idx, -, rfl⟩
  · have hk' : ((nm, ii1 ++ [idx.1, idx.2]) : GKey) = (n', k) := hk
    exact (congrArg Prod.fst hk').symm
  · have hk' : ((nm, idx) : GKey) = (n', k) := hk
    exact (congrArg Prod.fst hk').symm

/-- The first-pass entries do not depend on the graph name except
through their keys. -/
theorem dsk0_strip (src : DaskArray) (sgb dgb : GeoBox) (cy cx : Nat)
    (res : String) (sn dn : Option ℤ) (axis : Nat) (nm1 nm2 : GName) :
    (dsk0Of src sgb dgb cy cx res sn dn axis nm1).map
      (fun e => (e.1.2, e.2)) =
    (dsk0Of src sgb dgb cy cx res sn dn axis nm2).map
      (fun e => (e.1.2, e.2)) := by
  simp [dsk0Of, List.map_flatMap, List.map_map, Function.comp_def,
    resampleEntryAt]

theorem any_key_strip (src : DaskArray) (sgb dgb : GeoBox) (cy cx : Nat)
    (res : String) (sn dn : Option ℤ) (axis : Nat) (nm1 nm2 : GName)
    (hax : axis ≤ src.chunks.length) (idx : List Nat) :
    (dsk0Of src sgb dgb cy cx res sn dn axis nm1).any
      (fun e => e.1 = (nm1, idx)) =
    (dsk0Of src sgb dgb cy cx res sn dn axis nm2).any
      (fun e => e.1 = (nm2, idx)) := by
  rw [Bool.eq_iff_iff]
  have hmem : ∀ nm : GName,
      ((dsk0Of src sgb dgb cy cx res sn dn axis nm).any
        (fun e => e.1 = (nm, idx)) = true ↔
      (nm, idx) ∈ (dsk0Of src sgb dgb cy cx res sn dn axis nm).map Prod.fst) := by
    intro nm
    rw [List.any_eq_true]
    constructor
    · rintro ⟨e, he, hp⟩
      exact List.mem_map.mpr ⟨e, he, of_decide_eq_true hp⟩
    · intro h
      rcases List.mem_map.mp h with ⟨e, he, hk⟩
      exact ⟨e, he, by simp [hk]⟩
  rw [hmem nm1, hmem nm2, dsk0_key_mem hax, dsk0_key_mem hax]

theorem fills_strip (src : DaskArray) (sgb dgb : GeoBox) (cy cx : Nat)
    (res : String) (sn dn : Option ℤ) (axis : Nat) (nm1 nm2 : GName)
    (hax : axis ≤ src.chunks.length) :
    (fillsOf src sgb dgb cy cx res sn dn axis nm1).map
      (fun e => (e.1.2, e.2)) =
    (fillsOf src sgb dgb cy cx res sn dn axis nm2).map
      (fun e => (e.1.2, e.2)) := by
  unfold fillsOf
  rw [List.map_map, List.map_map]
  have hfilter :
      (ndindex ((dstChunksOf src dgb cy cx axis).map List.length)).filter
        (fun idx => ¬ (dsk0Of src sgb dgb cy cx res sn dn axis nm1).any
          (fun e => e.1 = (nm1, idx))) =
      (ndindex ((dstChunksOf src dgb cy cx axis).map List.length)).filter
        (fun idx => ¬ (dsk0Of src sgb dgb cy cx res sn dn axis nm2).any
          (fun e => e.1 = (nm2, idx))) := by
    apply List.filter_congr
    intro idx _
    rw [any_key_strip src sgb dgb cy cx res sn dn axis nm1 nm2 hax idx]
  rw [hfilter]
  rfl

/-- C9 counterexample: two calls with identical user inputs draw
different random name tokens and produce task graphs with different key
sets, so graph construction is not a pure function of the user-facing
inputs alone. -/
theorem dask_reproject_keys_differ_across_tokens :
    ¬ ((dask_reproject srcW gW gW "nearest" (some (2, 2)) none none 0
          "reproject" 0).map (fun r => r.dsk.map Prod.fst) =
       (dask_reproject srcW gW gW "nearest" (some (2, 2)) none none 0
          "reproject" 1).map (fun r => r.dsk.map Prod.fst)) := by
  intro h
  rw [dask_reproject_ok srcW gW gW "nearest" (some (2, 2)) none none 0
      "reproject" 0 (by decide) rfl,
    dask_reproject_ok srcW gW gW "nearest" (some (2, 2)) none none 0
      "reproject" 1 (by decide) rfl] at h
  rw [show resolvedChunks srcW (some (2, 2)) 0 = [2, 2] from rfl,
    reprojectGraph_eq srcW gW gW "nearest" 2 2 none _ 0 "reproject" 0
      (by decide),
    reprojectGraph_eq srcW gW gW "nearest" 2 2 none _ 0 "reproject" 1
      (by decide)] at h
  simp only [Except.map] at h
  have h' := Except.ok.inj h
  have hin : (GName.str "reproject" 0, [0, 0]) ∈
      (dsk0Of srcW gW gW 2 2 "nearest" none
        (Option.orElse none fun _ => none) 0 (GName.str "reproject" 0) ++
       fillsOf srcW gW gW 2 2 "nearest" none
        (Option.orElse none fun _ => none) 0 (GName.str "reproject" 0)).map
      Prod.fst := by
    have hpos : 0 < (dsk0Of srcW gW gW 2 2 "nearest" none
        (Option.orElse none fun _ => none) 0 (GName.str "reproject" 0) ++
       fillsOf srcW gW gW 2 2 "nearest" none
        (Option.orElse none fun _ => none) 0
          (GName.str "reproject" 0)).countP
        (fun e => e.1 = (GName.str "reproject" 0, [0, 0])) := by
      have hup : unpack_chunksize 2 2 = [2] := by
        rw [unpack_chunksize]
        norm_num
      have hdst : (dstChunksOf srcW gW 2 2 0).map List.length = [1, 1] := by
        simp [dstChunksOf, srcW, gW, hup]
      rw [graph_key_count srcW gW gW 2 2 "nearest" none _ 0 _ (by decide), hdst,
        if_pos (by decide)]
      omega
    rcases List.countP_pos.mp hpos with ⟨e, he, hp⟩
    exact List.mem_map.mpr ⟨e, he, of_decide_eq_true hp⟩
  rw [h'] at hin
  have := graph_keys_name hin
  simp at this

/-- C9 amended: graph construction is a pure function of the inputs and
the drawn name token; for a fixed token the result is identical, and
across tokens everything except the token-bearing graph name — the
entries keyed by block index, the chunking, dtype, shape and the
dependency list — is identical. -/
theorem dask_reproject_deterministic_up_to_token
    (src : DaskArray) (sgb dgb : GeoBox) (res : String)
    (chunks : Option (Nat × Nat)) (sn dn : Option ℤ) (axis : Nat)
    (nm : String) (tk1 tk2 : Nat)
    (hs : (src.shape.drop axis).take 2 = sgb.shape)
    (ht : src.chunks.drop (axis + 2) = []) :
    (dask_reproject src sgb dgb res chunks sn dn axis nm tk1).map
      graphSkeleton =
    (dask_reproject src sgb dgb res chunks sn dn axis nm tk2).map
      graphSkeleton := by
  have hlen := chunks_len_of_valid hs ht
  have hax : axis ≤ src.chunks.length := by omega
  rw [dask_reproject_ok src sgb dgb res chunks sn dn axis nm tk1 hs ht,
    dask_reproject_ok src sgb dgb res chunks sn dn axis nm tk2 hs ht]
  obtain ⟨cy, cx, hcc⟩ : ∃ cy cx, resolvedChunks src chunks axis = [cy, cx] :=
    ⟨_, _, resolvedChunks_eq_pair (by omega)⟩
  rw [hcc, reprojectGraph_eq src sgb dgb res cy cx sn _ axis nm tk1 hax,
    reprojectGraph_eq src sgb dgb res cy cx sn _ axis nm tk2 hax]
  simp only [Except.map, graphSkeleton, List.map_append]
  rw [dsk0_strip src sgb dgb cy cx res sn _ axis (GName.str nm tk1)
      (GName.str nm tk2),
    fills_strip src sgb dgb cy cx res sn _ axis (GName.str nm tk1)
      (GName.str nm tk2) hax]

theorem dask_reproject_deterministic_up_to_token_witness :
    (dask_reproject srcW gW gW "nearest" (some (2, 2)) none none 0
      "reproject" 0).map graphSkeleton =
    (dask_reproject srcW gW gW "nearest" (some (2, 2)) none none 0
      "reproject" 1).map graphSkeleton :=
  dask_reproject_deterministic_up_to_token srcW gW gW "nearest"
    (some (2, 2)) none none 0 "reproject" 0 1 (by decide) rfl

/-! ### ROI coverage: the clipped source window contains every source
pixel a destination tile pixel centre maps to -/

theorem clipPix_le (n : Nat) (z : ℤ) : clipPix n z ≤ n := Nat.min_le_left _ _

theorem clipPix_mono (n : Nat) {a b : ℤ} (h : a ≤ b) :
    clipPix n a ≤ clipPix n b :=
  min_le_min le_rfl (Int.toNat_le_toNat h)

/-- Coverage along one axis: for a destination tile spanning pixel rows
`[0, tn)` with origin `tty` and resolution `dry`, the centre of local
row `li` maps to a source row `si`; whenever `si` is a real source row,
it lies inside the clipped floor/ceil window of the tile extent, and the
tile's world interval meets the source's.  The window is always within
the source shape and well ordered. -/
theorem axis_cover (sty sry : ℚ) (sny : Nat) (hsry : sry ≠ 0)
    (tty dry : ℚ) (hdry : dry ≠ 0) (tn li : Nat) (hli : li < tn)
    (wy ay b : ℚ) (si : ℤ) (y0 y1 : Nat)
    (hwy : wy = tty + (li + 1/2) * dry)
    (hay : ay = (min tty (tty + tn * dry) - sty) / sry)
    (hb : b = (max tty (tty + tn * dry) - sty) / sry)
    (hsi : si = ⌊(wy - sty) / sry⌋)
    (hy0 : y0 = clipPix sny ⌊min ay b⌋)
    (hy1 : y1 = clipPix sny ⌈max ay b⌉) :
    (0 ≤ si → si < sny → (y0 : ℤ) ≤ si ∧ si < (y1 : ℤ)) ∧
    y1 ≤ sny ∧ y0 ≤ y1 ∧
    (0 ≤ si → si < sny →
      Ival.intersects ⟨min tty (tty + tn * dry), max tty (tty + tn * dry)⟩
        ⟨min sty (sty + sny * sry), max sty (sty + sny * sry)⟩ = true) := by
  subst hwy hay hb hsi hy0 hy1
  set wy := tty + ((li : ℚ) + 1/2) * dry with hwy
  set sy := (wy - sty) / sry with hsydef
  have hl1 : (0 : ℚ) < (li : ℚ) + 1/2 := by positivity
  have hl2 : ((li : ℚ) + 1/2) < tn := by
    have : (li : ℚ) + 1 ≤ tn := by exact_mod_cast hli
    linarith
  have hlo : min tty (tty + tn * dry) < wy ∧ wy < max tty (tty + tn * dry) := by
    rcases lt_or_gt_of_ne hdry with hneg | hpos
    · have h1 : (tn : ℚ) * dry < ((li : ℚ) + 1/2) * dry :=
        mul_lt_mul_of_neg_right hl2 hneg
      have h2 : ((li : ℚ) + 1/2) * dry < 0 := mul_neg_of_pos_of_neg hl1 hneg
      exact ⟨min_lt_iff.mpr (Or.inr (by rw [hwy]; linarith)),
        lt_max_iff.mpr (Or.inl (by rw [hwy]; linarith))⟩
    · have h1 : ((li : ℚ) + 1/2) * dry < (tn : ℚ) * dry :=
        mul_lt_mul_of_pos_right hl2 hpos
      have h2 : 0 < ((li : ℚ) + 1/2) * dry := mul_pos hl1 hpos
      exact ⟨min_lt_iff.mpr (Or.inl (by rw [hwy]; linarith)),
        lt_max_iff.mpr (Or.inr (by rw [hwy]; linarith))⟩
  have hsy : min ((min tty (tty + tn * dry) - sty) / sry)
      ((max tty (tty + tn * dry) - sty) / sry) < sy ∧
      sy < max ((min tty (tty + tn * dry) - sty) / sry)
        ((max tty (tty + tn * dry) - sty) / sry) := by
    rcases lt_or_gt_of_ne hsry with hneg | hpos
    · constructor
      · refine min_lt_iff.mpr (Or.inr ?_)
        exact (div_lt_div_right_of_neg hneg).mpr (by linarith [hlo.2])
      · refine lt_max_iff.mpr (Or.inl ?_)
        exact (div_lt_div_right_of_neg hneg).mpr (by linarith [hlo.1])
    · constructor
      · refine min_lt_iff.mpr (Or.inl ?_)
        exact (div_lt_div_right hpos).mpr (by linarith [hlo.1])
      · refine lt_max_iff.mpr (Or.inr ?_)
        exact (div_lt_div_right hpos).mpr (by linarith [hlo.2])
  refine ⟨?_, clipPix_le _ _, ?_, ?_⟩
  · intro h0 h1
    constructor
    · have hfl : ⌊min ((min tty (tty + tn * dry) - sty) / sry)
          ((max tty (tty + tn * dry) - sty) / sry)⌋ ≤ ⌊sy⌋ :=
        Int.floor_le_floor hsy.1.le
      calc (clipPix sny ⌊min ((min tty (tty + tn * dry) - sty) / sry)
            ((max tty (tty + tn * dry) - sty) / sry)⌋ : ℤ)
          ≤ (⌊min ((min tty (tty + tn * dry) - sty) / sry)
            ((max tty (tty + tn * dry) - sty) / sry)⌋.toNat : ℤ) := by
            exact_mod_cast Nat.min_le_right _ _
        _ ≤ (⌊sy⌋.toNat : ℤ) := by exact_mod_cast Int.toNat_le_toNat hfl
        _ = ⌊sy⌋ := Int.toNat_of_nonneg h0
    · have hceil : ⌊sy⌋ < ⌈max ((min tty (tty + tn * dry) - sty) / sry)
          ((max tty (tty + tn * dry) - sty) / sry)⌉ :=
        Int.lt_ceil.mpr (lt_of_le_of_lt (Int.floor_le sy) hsy.2)
      have hcast : (clipPix sny ⌈max ((min tty (tty + tn * dry) - sty) / sry)
          ((max tty (tty + tn * dry) - sty) / sry)⌉ : ℤ) =
          min (sny : ℤ) ((⌈max ((min tty (tty + tn * dry) - sty) / sry)
            ((max tty (tty + tn * dry) - sty) / sry)⌉.toNat : ℤ)) := by
        exact_mod_cast Nat.cast_min _ _
      rw [hcast]
      refine lt_min h1 ?_
      refine lt_of_lt_of_le hceil ?_
      rw [Int.toNat_eq_max]
      exact le_max_left _ _
  · exact clipPix_mono _ (le_trans (Int.floor_le_floor (min_le_max)) (Int.floor_le_ceil _))
  · intro h0 h1
    have hsyl : (0 : ℚ) ≤ sy :=
      le_trans (by exact_mod_cast h0 : (0 : ℚ) ≤ (⌊sy⌋ : ℚ)) (Int.floor_le sy)
    have hsyu : sy < (sny : ℚ) := by
      have h1' : (⌊sy⌋ : ℚ) + 1 ≤ (sny : ℚ) := by exact_mod_cast h1
      exact lt_of_lt_of_le (Int.lt_floor_add_one sy) h1'
    have hw : wy = sty + sy * sry := by
      rw [hsydef]
      field_simp
    have hsrc : min sty (sty + sny * sry) ≤ wy ∧
        wy ≤ max sty (sty + sny * sry) := by
      rcases lt_or_gt_of_ne hsry with hneg | hpos
      · have h1 : (sny : ℚ) * sry ≤ sy * sry :=
          mul_le_mul_of_nonpos_right hsyu.le hneg.le
        have h2 : sy * sry ≤ 0 := mul_nonpos_of_nonneg_of_nonpos hsyl hneg.le
        constructor
        · refine le_trans (min_le_right _ _) ?_
          rw [hw]; linarith
        · refine le_trans ?_ (le_max_left _ _)
          rw [hw]; linarith
      · have h1 : sy * sry ≤ (sny : ℚ) * sry :=
          mul_le_mul_of_nonneg_right hsyu.le hpos.le
        have h2 : 0 ≤ sy * sry := mul_nonneg hsyl hpos.le
        constructor
        · refine le_trans (min_le_left _ _) ?_
          rw [hw]; linarith
        · refine le_trans ?_ (le_max_right _ _)
          rw [hw]; linarith
    simp only [Ival.intersects, Bool.and_eq_true, decide_eq_true_eq]
    constructor
    · exact le_trans hlo.1.le hsrc.2
    · exact le_trans hsrc.1 hlo.2.le

/-- Resampling against the ROI-cropped source grid reads exactly the
globally-addressed source pixel (shifted into the window), with the same
in/out-of-source classification as the uncropped lookup. -/
theorem nearestAt_sliceRoi (blk : NDArr) (sgb tgb : GeoBox) (dn : Option ℤ)
    (hsry : sgb.ry ≠ 0) (hsrx : sgb.rx ≠ 0)
    (hdry : tgb.ry ≠ 0) (hdrx : tgb.rx ≠ 0)
    (li lj : Nat) (hli : li < tgb.ny) (hlj : lj < tgb.nx)
    (si sj : ℤ)
    (hsi : si = ⌊((tgb.ty + (li + 1/2) * tgb.ry) - sgb.ty) / sgb.ry⌋)
    (hsj : sj = ⌊((tgb.tx + (lj + 1/2) * tgb.rx) - sgb.tx) / sgb.rx⌋) :
    nearestAt blk (sgb.sliceRoi (compute_reproject_roi sgb tgb).roi_src)
      tgb dn li lj =
      if 0 ≤ si ∧ si < sgb.ny ∧ 0 ≤ sj ∧ sj < sgb.nx then
        blk.get [(si - ((compute_reproject_roi sgb tgb).roi_src.y0 : ℤ)).toNat,
                 (sj - ((compute_reproject_roi sgb tgb).roi_src.x0 : ℤ)).toNat]
      else dn.getD 0 := by
  set roi := (compute_reproject_roi sgb tgb).roi_src with hroi
  have covery := axis_cover sgb.ty sgb.ry sgb.ny hsry tgb.ty tgb.ry hdry
    tgb.ny li hli (tgb.ty + (li + 1/2) * tgb.ry)
    ((min tgb.ty (tgb.ty + tgb.ny * tgb.ry) - sgb.ty) / sgb.ry)
    ((max tgb.ty (tgb.ty + tgb.ny * tgb.ry) - sgb.ty) / sgb.ry)
    si roi.y0 roi.y1 rfl rfl rfl hsi rfl rfl
  have coverx := axis_cover sgb.tx sgb.rx sgb.nx hsrx tgb.tx tgb.rx hdrx
    tgb.nx lj hlj (tgb.tx + (lj + 1/2) * tgb.rx)
    ((min tgb.tx (tgb.tx + tgb.nx * tgb.rx) - sgb.tx) / sgb.rx)
    ((max tgb.tx (tgb.tx + tgb.nx * tgb.rx) - sgb.tx) / sgb.rx)
    sj roi.x0 roi.x1 rfl rfl rfl hsj rfl rfl
  have hsival : ⌊((tgb.ty + ((li : ℚ) + 1/2) * tgb.ry) -
      (sgb.sliceRoi roi).ty) / (sgb.sliceRoi roi).ry⌋ = si - roi.y0 := by
    have harg : ((tgb.ty + ((li : ℚ) + 1/2) * tgb.ry) -
        (sgb.sliceRoi roi).ty) / (sgb.sliceRoi roi).ry =
        ((tgb.ty + ((li : ℚ) + 1/2) * tgb.ry) - sgb.ty) / sgb.ry -
          (((roi.y0 : ℤ) : ℚ)) := by
      show ((tgb.ty + ((li : ℚ) + 1/2) * tgb.ry) -
        (sgb.ty + roi.y0 * sgb.ry)) / sgb.ry = _
      push_cast
      field_simp
      ring
    rw [harg, Int.floor_sub_int, ← hsi]
  have hsjval : ⌊((tgb.tx + ((lj : ℚ) + 1/2) * tgb.rx) -
      (sgb.sliceRoi roi).tx) / (sgb.sliceRoi roi).rx⌋ = sj - roi.x0 := by
    have harg : ((tgb.tx + ((lj : ℚ) + 1/2) * tgb.rx) -
        (sgb.sliceRoi roi).tx) / (sgb.sliceRoi roi).rx =
        ((tgb.tx + ((lj : ℚ) + 1/2) * tgb.rx) - sgb.tx) / sgb.rx -
          (((roi.x0 : ℤ) : ℚ)) := by
      show ((tgb.tx + ((lj : ℚ) + 1/2) * tgb.rx) -
        (sgb.tx + roi.x0 * sgb.rx)) / sgb.rx = _
      push_cast
      field_simp
      ring
    rw [harg, Int.floor_sub_int, ← hsj]
  have hnycast : (((sgb.sliceRoi roi).ny : ℕ) : ℤ) = (roi.y1 : ℤ) - roi.y0 := by
    show (((roi.y1 - roi.y0 : ℕ) : ℕ) : ℤ) = _
    rw [Nat.cast_sub covery.2.2.1]
  have hnxcast : (((sgb.sliceRoi roi).nx : ℕ) : ℤ) = (roi.x1 : ℤ) - roi.x0 := by
    show (((roi.x1 - roi.x0 : ℕ) : ℕ) : ℤ) = _
    rw [Nat.cast_sub coverx.2.2.1]
  simp only [nearestAt]
  rw [hsival, hsjval, hnycast, hnxcast]
  refine if_congr ?_ rfl rfl
  constructor
  · rintro ⟨h1, h2, h3, h4⟩
    have hy1 : (roi.y1 : ℤ) ≤ sgb.ny := by exact_mod_cast covery.2.1
    have hx1 : (roi.x1 : ℤ) ≤ sgb.nx := by exact_mod_cast coverx.2.1
    refine ⟨by omega, by omega, by omega, by omega⟩
  · rintro ⟨h1, h2, h3, h4⟩
    obtain ⟨hy0, hy1⟩ := covery.1 h1 h2
    obtain ⟨hx0, hx1⟩ := coverx.1 h3 h4
    refine ⟨by omega, by omega, by omega, by omega⟩

/-- Recomposing chunk starts with local offsets recovers the global
index. -/
theorem locate_roundtrip {chunks : List (List Nat)} {g : List Nat}
    (h : List.Forall₂ (· < ·) g (chunks.map List.sum)) :
    List.zipWith (fun (pz : List Nat × Nat) l => (pz.1.take pz.2).sum + l)
      (chunks.zip ((List.zipWith locate chunks g).map Prod.fst))
      ((List.zipWith locate chunks g).map Prod.snd) = g := by
  induction chunks generalizing g with
  | nil =>
    rw [List.map_nil] at h
    cases h
    rfl
  | cons c cs ih =>
    match g, h with
    | gz :: gt, List.Forall₂.cons hg ht =>
      simp only [List.zipWith_cons_cons, List.map_cons, List.zip_cons_cons]
      rw [ih ht]
      congr 1
      exact (locate_spec hg).1

/-- Local offsets are within their blocks. -/
theorem locate_locals_mem {chunks : List (List Nat)} {g : List Nat}
    (h : List.Forall₂ (· < ·) g (chunks.map List.sum)) :
    List.Forall₂ (· < ·) ((List.zipWith locate chunks g).map Prod.snd)
      (blockShape chunks ((List.zipWith locate chunks g).map Prod.fst)) := by
  induction chunks generalizing g with
  | nil =>
    rw [List.map_nil] at h
    cases h
    exact List.Forall₂.nil
  | cons c cs ih =>
    match g, h with
    | gz :: gt, List.Forall₂.cons hg ht =>
      simp only [List.zipWith_cons_cons, List.map_cons, blockShape]
      exact List.Forall₂.cons (locate_spec hg).2.1 (ih ht)

/-- Reading a materialised block of the cropped dense sub-array is a
window-shifted read of the source content. -/
theorem crop_getBlock_get (src : DaskArray) (roi : Roi) (axis : Nat)
    (hlen : src.chunks.length = axis + 2)
    (bp lp : List Nat) (hbplen : bp.length = axis) (hlplen : lp.length = axis)
    (a b : Nat) :
    ((crop_2d_dense src roi axis).getBlock (bp ++ [0, 0])).get
      (lp ++ [a, b]) =
      src.val ((List.zipWith
        (fun (pz : List Nat × Nat) l => (pz.1.take pz.2).sum + l)
        ((src.chunks.take axis).zip bp) lp) ++ [roi.y0 + a, roi.x0 + b]) := by
  have hdrop : src.chunks.drop (axis + 2) = [] :=
    List.drop_eq_nil_of_le (by omega)
  have htakeL : (src.chunks.take axis).length = axis := by
    simp only [List.length_take]; omega
  set E := List.zipWith
    (fun (pz : List Nat × Nat) l => (pz.1.take pz.2).sum + l)
    ((src.chunks.take axis).zip bp) lp with hE
  have hElen : E.length = axis := by
    rw [hE, List.length_zipWith, List.length_zip, htakeL, hbplen, hlplen]
    simp
  show (crop_2d_dense src roi axis).val
    (List.zipWith (fun (pz : List Nat × Nat) l => (pz.1.take pz.2).sum + l)
      ((crop_2d_dense src roi axis).chunks.zip (bp ++ [0, 0]))
      (lp ++ [a, b])) = _
  have hchunks : (crop_2d_dense src roi axis).chunks =
      src.chunks.take axis ++ [[roi.y1 - roi.y0], [roi.x1 - roi.x0]] := by
    show src.chunks.take axis ++ [[roi.y1 - roi.y0], [roi.x1 - roi.x0]] ++
      src.chunks.drop (axis + 2) = _
    rw [hdrop, List.append_nil]
  rw [hchunks, List.zip_append (by rw [htakeL, hbplen]),
    List.zipWith_append _ _ _ _ _ (by rw [List.length_zip, htakeL, hbplen, hlplen]; simp)]
  have htail : List.zipWith
      (fun (pz : List Nat × Nat) l => (pz.1.take pz.2).sum + l)
      ([[roi.y1 - roi.y0], [roi.x1 - roi.x0]].zip [0, 0]) [a, b] = [a, b] := by
    simp [List.zipWith]
  rw [htail]
  show src.val ((E ++ [a, b]).take axis ++
    [roi.y0 + (E ++ [a, b]).getD axis 0, roi.x0 + (E ++ [a, b]).getD (axis + 1) 0] ++
    (E ++ [a, b]).drop (axis + 2)) = _
  have ht1 : (E ++ [a, b]).take axis = E := by
    rw [List.take_append_of_le_length (by omega), List.take_of_length_le (by omega)]
  have ht2 : (E ++ [a, b]).getD axis 0 = a := by
    rw [List.getD_eq_getElem?_getD, List.getElem?_append_right (by omega), hElen]
    simp
  have ht3 : (E ++ [a, b]).getD (axis + 1) 0 = b := by
    rw [List.getD_eq_getElem?_getD, List.getElem?_append_right (by omega), hElen]
    simp
  have ht4 : (E ++ [a, b]).drop (axis + 2) = [] := by
    apply List.drop_eq_nil_of_le
    rw [List.length_append, hElen]
    simp
  rw [ht1, ht2, ht3, ht4, List.append_nil]

theorem crop_getBlock_shape (src : DaskArray) (roi : Roi) (axis : Nat)
    (hlen : src.chunks.length = axis + 2)
    (bp : List Nat) (hbplen : bp.length = axis) :
    ((crop_2d_dense src roi axis).getBlock (bp ++ [0, 0])).shape =
      blockShape (src.chunks.take axis) bp ++
        [roi.y1 - roi.y0, roi.x1 - roi.x0] := by
  have hdrop : src.chunks.drop (axis + 2) = [] :=
    List.drop_eq_nil_of_le (by omega)
  have htakeL : (src.chunks.take axis).length = axis := by
    simp only [List.length_take]; omega
  rw [getBlock_shape]
  show blockShape (src.chunks.take axis ++
    [[roi.y1 - roi.y0], [roi.x1 - roi.x0]] ++ src.chunks.drop (axis + 2))
    (bp ++ [0, 0]) = _
  rw [hdrop, List.append_nil]
  unfold blockShape
  rw [List.zipWith_append _ _ _ _ _ (by rw [htakeL, hbplen])]
  rfl

/-- The central semantic theorem: for every valid input with nonzero
resolutions and any chunk-size request, the materialised output of the
constructed graph at any in-range global index equals the
chunking-independent nearest-neighbour reference `globalNearest`. -/
theorem valAt_eq_globalNearest
    (src : DaskArray) (sgb dgb : GeoBox) (res : String)
    (chunks : Option (Nat × Nat)) (sn dn : Option ℤ) (axis : Nat)
    (nm : String) (tk : Nat) (r : ReprojResult)
    (hs : (src.shape.drop axis).take 2 = sgb.shape)
    (ht : src.chunks.drop (axis + 2) = [])
    (hsry : sgb.ry ≠ 0) (hsrx : sgb.rx ≠ 0)
    (hdry : dgb.ry ≠ 0) (hdrx : dgb.rx ≠ 0)
    (hr : dask_reproject src sgb dgb res chunks sn dn axis nm tk = .ok r)
    (g : List Nat) (hg : List.Forall₂ (· < ·) g r.shape) :
    r.valAt g = globalNearest src sgb dgb (dn.orElse fun _ => sn) axis g := by
  have hlen := chunks_len_of_valid hs ht
  have hax : axis ≤ src.chunks.length := by omega
  rw [dask_reproject_ok src sgb dgb res chunks sn dn axis nm tk hs ht] at hr
  obtain rfl := Except.ok.inj hr
  obtain ⟨cy, cx, hcc⟩ : ∃ cy cx, resolvedChunks src chunks axis = [cy, cx] :=
    ⟨_, _, resolvedChunks_eq_pair (by omega)⟩
  rw [hcc, reprojectGraph_eq src sgb dgb res cy cx sn _ axis nm tk hax] at hg ⊢
  set dn' : Option ℤ := dn.orElse fun _ => sn with hdn'
  set nm' : GName := GName.str nm tk with hnm'
  set P : List (List Nat) := src.chunks.take axis with hP
  set uy : List Nat := unpack_chunksize cy dgb.ny with huy
  set ux : List Nat := unpack_chunksize cx dgb.nx with hux
  have hPlen : P.length = axis := by
    rw [hP]; simp only [List.length_take]; omega
  have hsdrop : src.shape.drop (axis + 2) = [] := by
    show (src.chunks.map List.sum).drop (axis + 2) = []
    rw [← List.map_drop, ht]
    rfl
  -- the global index decomposes into prefix, row and column parts
  have hg' : List.Forall₂ (· < ·) g
      (src.shape.take axis ++ [dgb.ny, dgb.nx]) := by
    have h9 := hg
    dsimp only at h9
    rw [hsdrop, List.append_nil] at h9
    exact h9
  have hSlen : (src.shape.take axis).length = axis := by
    simp only [List.length_take, DaskArray.shape, List.length_map]
    omega
  have hglen : g.length = axis + 2 := by
    have := hg'.length_eq
    simp only [List.length_append, hSlen, List.length_cons, List.length_nil] at this
    omega
  set gi : Nat := g.getD axis 0 with hgi
  set gj : Nat := g.getD (axis + 1) 0 with hgj
  set gp : List Nat := g.take axis with hgp
  have hgdecomp : g = gp ++ [gi, gj] := eq_take_append_pair hglen
  have hgplen : gp.length = axis := by
    rw [hgp]; simp only [List.length_take]; omega
  have hgpS : List.Forall₂ (· < ·) gp (src.shape.take axis) := by
    have := List.forall₂_take_append g (src.shape.take axis) [dgb.ny, dgb.nx] hg'
    rwa [hSlen] at this
  have hgp_sum : List.Forall₂ (· < ·) gp (P.map List.sum) := by
    rw [hP, List.map_take]
    exact hgpS
  have hyx : List.Forall₂ (· < ·) [gi, gj] [dgb.ny, dgb.nx] := by
    have h2 := List.forall₂_drop_append g (src.shape.take axis) [dgb.ny, dgb.nx] hg'
    rw [hSlen] at h2
    have hdg : g.drop axis = [gi, gj] := by
      conv_lhs => rw [hgdecomp]
      rw [List.drop_left' hgplen]
    rwa [hdg] at h2
  have hgiN : gi < dgb.ny := by
    rcases hyx with _ | ⟨h1, -⟩
    exact h1
  have hgjN : gj < dgb.nx := by
    rcases hyx with _ | ⟨-, h2⟩
    rcases h2 with _ | ⟨h2, -⟩
    exact h2
  -- locate the block and the local offsets
  have hCH : dstChunksOf src dgb cy cx axis = P ++ [uy, ux] := by
    rw [dstChunksOf, ht, List.append_nil, hP, huy, hux]
  set br : Nat := (locate uy gi).1 with hbr_def
  set li : Nat := (locate uy gi).2 with hli_def
  set bc : Nat := (locate ux gj).1 with hbc_def
  set lj : Nat := (locate ux gj).2 with hlj_def
  have hy_lt : gi < uy.sum := by
    rw [huy, unpack_chunksize_sum]
    exact hgiN
  have hx_lt : gj < ux.sum := by
    rw [hux, unpack_chunksize_sum]
    exact hgjN
  have hyspec := locate_spec hy_lt
  have hxspec := locate_spec hx_lt
  set bpL : List Nat := (List.zipWith locate P gp).map Prod.fst with hbpL
  set lpL : List Nat := (List.zipWith locate P gp).map Prod.snd with hlpL
  have hbpllen : bpL.length = axis := by
    rw [hbpL]
    simp only [List.length_map, List.length_zipWith, hPlen, hgplen]
    simp
  have hlpllen : lpL.length = axis := by
    rw [hlpL]
    simp only [List.length_map, List.length_zipWith, hPlen, hgplen]
    simp
  have hbl : List.zipWith locate (dstChunksOf src dgb cy cx axis) g =
      List.zipWith locate P gp ++ [locate uy gi, locate ux gj] := by
    rw [hCH]
    conv_lhs => rw [hgdecomp]
    rw [List.zipWith_append _ _ _ _ _ (by rw [hPlen, hgplen])]
    rfl
  have hblocks : (List.zipWith locate (dstChunksOf src dgb cy cx axis) g).map
      Prod.fst = bpL ++ [br, bc] := by
    rw [hbl, List.map_append, hbpL]
    rfl
  have hlocals : (List.zipWith locate (dstChunksOf src dgb cy cx axis) g).map
      Prod.snd = lpL ++ [li, lj] := by
    rw [hbl, List.map_append, hlpL]
    rfl
  -- the block is in the shape-in-blocks space, so its key is present
  have hgsum : List.Forall₂ (· < ·) g
      ((dstChunksOf src dgb cy cx axis).map List.sum) := by
    rw [dstChunks_sum, hsdrop, List.append_nil]
    exact hg'
  have hblocks_mem : bpL ++ [br, bc] ∈
      ndindex ((dstChunksOf src dgb cy cx axis).map List.length) := by
    rw [← hblocks]
    exact locate_blocks_mem hgsum
  have hpos : 0 < (dsk0Of src sgb dgb cy cx res sn dn' axis nm' ++
      fillsOf src sgb dgb cy cx res sn dn' axis nm').countP
      (fun e => e.1 = (nm', bpL ++ [br, bc])) := by
    rw [graph_key_count src sgb dgb cy cx res sn dn' axis nm' hlen,
      if_pos hblocks_mem]
    omega
  obtain ⟨en, hfind, hen, hkey⟩ := find?_entry_of_countP_pos hpos
  unfold ReprojResult.valAt ReprojResult.blockAt
  dsimp only
  rw [hblocks, hlocals, hfind]
  dsimp only
  -- the tile GeoBox of the located row/column block
  set tgb : GeoBox := tileBoxAt dgb cy cx (br, bc) with htgb
  have htgb_ny : tgb.ny = uy.getD br 0 := by
    rw [htgb]
    exact tileBox_ny _ br bc
  have htgb_nx : tgb.nx = ux.getD bc 0 := by
    rw [htgb]
    exact tileBox_nx _ br bc
  have hli_lt : li < tgb.ny := by rw [htgb_ny]; exact hyspec.2.1
  have hlj_lt : lj < tgb.nx := by rw [htgb_nx]; exact hxspec.2.1
  have htgb_ty : tgb.ty = dgb.ty + ((uy.take br).sum : ℚ) * dgb.ry := rfl
  have htgb_tx : tgb.tx = dgb.tx + ((ux.take bc).sum : ℚ) * dgb.rx := rfl
  have htgb_ry : tgb.ry = dgb.ry := rfl
  have htgb_rx : tgb.rx = dgb.rx := rfl
  -- the tile-local pixel centre is the global pixel centre
  have hwy_eq : tgb.ty + ((li : ℚ) + 1/2) * tgb.ry =
      dgb.ty + ((gi : ℚ) + 1/2) * dgb.ry := by
    have hc : (gi : ℚ) = ((uy.take br).sum : ℚ) + (li : ℚ) := by
      exact_mod_cast hyspec.1.symm
    rw [htgb_ty, htgb_ry, hc]
    ring
  have hwx_eq : tgb.tx + ((lj : ℚ) + 1/2) * tgb.rx =
      dgb.tx + ((gj : ℚ) + 1/2) * dgb.rx := by
    have hc : (gj : ℚ) = ((ux.take bc).sum : ℚ) + (lj : ℚ) := by
      exact_mod_cast hxspec.1.symm
    rw [htgb_tx, htgb_rx, hc]
    ring
  set si : ℤ := ⌊(dgb.ty + ((gi : ℚ) + 1/2) * dgb.ry - sgb.ty) / sgb.ry⌋
    with hsi_def
  set sj : ℤ := ⌊(dgb.tx + ((gj : ℚ) + 1/2) * dgb.rx - sgb.tx) / sgb.rx⌋
    with hsj_def
  have hsi_tile : si = ⌊((tgb.ty + ((li : ℚ) + 1/2) * tgb.ry) - sgb.ty) /
      sgb.ry⌋ := by rw [hwy_eq, hsi_def]
  have hsj_tile : sj = ⌊((tgb.tx + ((lj : ℚ) + 1/2) * tgb.rx) - sgb.tx) /
      sgb.rx⌋ := by rw [hwx_eq, hsj_def]
  have hdry' : tgb.ry ≠ 0 := by rw [htgb_ry]; exact hdry
  have hdrx' : tgb.rx ≠ 0 := by rw [htgb_rx]; exact hdrx
  -- per-axis coverage data for this tile
  have covery := axis_cover sgb.ty sgb.ry sgb.ny hsry tgb.ty tgb.ry hdry'
    tgb.ny li hli_lt (tgb.ty + (li + 1/2) * tgb.ry)
    ((min tgb.ty (tgb.ty + tgb.ny * tgb.ry) - sgb.ty) / sgb.ry)
    ((max tgb.ty (tgb.ty + tgb.ny * tgb.ry) - sgb.ty) / sgb.ry)
    si ((compute_reproject_roi sgb tgb).roi_src.y0)
    ((compute_reproject_roi sgb tgb).roi_src.y1) rfl rfl rfl hsi_tile rfl rfl
  have coverx := axis_cover sgb.tx sgb.rx sgb.nx hsrx tgb.tx tgb.rx hdrx'
    tgb.nx lj hlj_lt (tgb.tx + (lj + 1/2) * tgb.rx)
    ((min tgb.tx (tgb.tx + tgb.nx * tgb.rx) - sgb.tx) / sgb.rx)
    ((max tgb.tx (tgb.tx + tgb.nx * tgb.rx) - sgb.tx) / sgb.rx)
    sj ((compute_reproject_roi sgb tgb).roi_src.x0)
    ((compute_reproject_roi sgb tgb).roi_src.x1) rfl rfl rfl hsj_tile rfl rfl
  -- unfold the reference semantics
  have hgl : globalNearest src sgb dgb dn' axis g =
      if 0 ≤ si ∧ si < sgb.ny ∧ 0 ≤ sj ∧ sj < sgb.nx then
        src.val (gp ++ [si.toNat, sj.toNat])
      else dn'.getD 0 := by
    simp only [globalNearest, ← hgi, ← hgj, ← hsi_def, ← hsj_def, ← hgp]
  rw [hgl]
  have hbrD : (bpL ++ [br, bc]).getD axis 0 = br := by
    rw [List.getD_eq_getElem?_getD, List.getElem?_append_right (by omega),
      hbpllen]
    simp
  have hbcD : (bpL ++ [br, bc]).getD (axis + 1) 0 = bc := by
    rw [List.getD_eq_getElem?_getD, List.getElem?_append_right (by omega),
      hbpllen]
    simp
  have hbr_rng : br < (mkGeoboxTiles dgb cy cx).chy.length := hyspec.2.2
  have hbc_rng : bc < (mkGeoboxTiles dgb cy cx).chx.length := hxspec.2.2
  by_cases htile : ((br, bc)) ∈ (mkGeoboxTiles dgb cy cx).tiles sgb.extent
  case neg =>
    -- untouched tile: the registered task is the constant fill
    have hen2 : ((nm', bpL ++ [br, bc]), en.2) ∈
        dsk0Of src sgb dgb cy cx res sn dn' axis nm' ++
        fillsOf src sgb dgb cy cx res sn dn' axis nm' := by
      rw [← hkey]
      exact hen
    rcases graph_entry_forms hen2 with ⟨idx', hidx', ii1, hii1, he⟩ |
      ⟨idx2, -, he⟩
    · exfalso
      have hk2 : ii1 ++ [idx'.1, idx'.2] = bpL ++ [br, bc] := by
        have h1 : bpL ++ [br, bc] = ii1 ++ [idx'.1, idx'.2] :=
          congrArg (fun e => e.1.2) he
        exact h1.symm
      have hii1len : ii1.length = axis := by
        rw [length_of_mem_ndindex hii1]
        simp only [dims1Of, List.length_map, List.length_take]
        omega
      obtain ⟨-, htl⟩ := List.append_inj hk2 (by omega)
      have hidx : idx' = (br, bc) := by
        obtain ⟨i1, i2⟩ := idx'
        injection htl with e1 htl2
        injection htl2 with e2 htl3
        simp only [Prod.mk.injEq]
        exact ⟨e1, e2⟩
      rw [hidx] at hidx'
      exact htile hidx'
    · have hidx2 : idx2 = bpL ++ [br, bc] := by
        have h1 : bpL ++ [br, bc] = idx2 := congrArg (fun e => e.1.2) he
        exact h1.symm
      subst hidx2
      have hfillent : en.2 = Task.fill
          (blockShape (dstChunksOf src dgb cy cx axis) (bpL ++ [br, bc]))
          (dn'.getD 0) := congrArg Prod.snd he
      rw [hfillent]
      show dn'.getD 0 = _
      -- the centre cannot map into the source, else the tile would
      -- intersect the source footprint
      have hnot : ¬ (0 ≤ si ∧ si < sgb.ny ∧ 0 ≤ sj ∧ sj < sgb.nx) := by
        rintro ⟨h1, h2, h3, h4⟩
        apply htile
        refine mem_tiles.mpr ⟨hbr_rng, hbc_rng, ?_⟩
        have hy := covery.2.2.2 h1 h2
        have hx := coverx.2.2.2 h3 h4
        show (((mkGeoboxTiles dgb cy cx).tileBox br bc).extent.y.intersects
          sgb.extent.y && ((mkGeoboxTiles dgb cy cx).tileBox br bc).extent.x.intersects
          sgb.extent.x) = true
        rw [show ((mkGeoboxTiles dgb cy cx).tileBox br bc).extent.y =
          ⟨min tgb.ty (tgb.ty + tgb.ny * tgb.ry),
           max tgb.ty (tgb.ty + tgb.ny * tgb.ry)⟩ from rfl,
          show ((mkGeoboxTiles dgb cy cx).tileBox br bc).extent.x =
          ⟨min tgb.tx (tgb.tx + tgb.nx * tgb.rx),
           max tgb.tx (tgb.tx + tgb.nx * tgb.rx)⟩ from rfl,
          show sgb.extent.y = ⟨min sgb.ty (sgb.ty + sgb.ny * sgb.ry),
            max sgb.ty (sgb.ty + sgb.ny * sgb.ry)⟩ from rfl,
          show sgb.extent.x = ⟨min sgb.tx (sgb.tx + sgb.nx * sgb.rx),
            max sgb.tx (sgb.tx + sgb.nx * sgb.rx)⟩ from rfl,
          hy, hx]
        rfl
      rw [if_neg hnot]
  case pos =>
    -- populated tile: the registered task is the resample task
    have hen2 : ((nm', bpL ++ [br, bc]), en.2) ∈
        dsk0Of src sgb dgb cy cx res sn dn' axis nm' ++
        fillsOf src sgb dgb cy cx res sn dn' axis nm' := by
      rw [← hkey]
      exact hen
    rcases graph_entry_forms hen2 with ⟨idx', hidx', ii1, hii1, he⟩ |
      ⟨idx2, hidx2mem, he⟩
    swap
    · exfalso
      have hidx2 : idx2 = bpL ++ [br, bc] := by
        have h1 : bpL ++ [br, bc] = idx2 := congrArg (fun e => e.1.2) he
        exact h1.symm
      subst hidx2
      rcases graph_entry_cases hlen hen2 with ⟨hres, -⟩ | ⟨-, -, hnotile⟩
      · have : en.2 = Task.fill
            (blockShape (dstChunksOf src dgb cy cx axis) (bpL ++ [br, bc]))
            (dn'.getD 0) := congrArg Prod.snd he
        rw [this] at hres
        simp [Task.isResample] at hres
      · rw [hbrD, hbcD] at hnotile
        exact hnotile htile
    have hk2 : ii1 ++ [idx'.1, idx'.2] = bpL ++ [br, bc] := by
      have h1 : bpL ++ [br, bc] = ii1 ++ [idx'.1, idx'.2] :=
        congrArg (fun e => e.1.2) he
      exact h1.symm
    have hii1len : ii1.length = axis := by
      rw [length_of_mem_ndindex hii1]
      simp only [dims1Of, List.length_map, List.length_take]
      omega
    obtain ⟨hhd, htl⟩ := List.append_inj hk2 (by omega)
    have hidx : idx' = (br, bc) := by
      obtain ⟨i1, i2⟩ := idx'
      injection htl with e1 htl2
      injection htl2 with e2 htl3
      simp only [Prod.mk.injEq]
      exact ⟨e1, e2⟩
    subst hidx
    have hentask : en.2 = Task.resample
        (cropAt src sgb dgb cy cx axis (br, bc)).name (ii1 ++ [0, 0])
        (sgb.sliceRoi (roiAt sgb dgb cy cx (br, bc)))
        (tileBoxAt dgb cy cx (br, bc)) res sn dn' axis :=
      congrArg Prod.snd he
    rw [hentask, hhd]
    set roi : Roi := roiAt sgb dgb cy cx (br, bc) with hroi
    have hfindc : findDep (src :: ((mkGeoboxTiles dgb cy cx).tiles
        sgb.extent).map (cropAt src sgb dgb cy cx axis))
        (GName.crop src.name roi.y0 roi.y1 roi.x0 roi.x1) =
        some (crop_2d_dense src roi axis) := by
      rw [cropAt_eta]
      exact findDep_crop src (roiAt sgb dgb cy cx) _ axis roi
        ⟨(br, bc), htile, rfl⟩
    show (taskBlock _ (Task.resample (cropAt src sgb dgb cy cx axis
      (br, bc)).name (bpL ++ [0, 0]) (sgb.sliceRoi roi)
      (tileBoxAt dgb cy cx (br, bc)) res sn dn' axis)).get (lpL ++ [li, lj]) = _
    unfold taskBlock
    dsimp only
    rw [show (cropAt src sgb dgb cy cx axis (br, bc)).name =
      GName.crop src.name roi.y0 roi.y1 roi.x0 roi.x1 from rfl, hfindc]
    dsimp only
    set blk : NDArr := (crop_2d_dense src roi axis).getBlock (bpL ++ [0, 0])
      with hblk
    have hblk_shape : blk.shape = blockShape P bpL ++
        [roi.y1 - roi.y0, roi.x1 - roi.x0] := by
      rw [hblk, crop_getBlock_shape src roi axis hlen bpL hbpllen, hP]
    have hbsl : (blockShape P bpL).length = axis := by
      simp only [blockShape, List.length_zipWith, hPlen, hbpllen]
      simp
    have hblk_len : blk.shape.length = axis + 2 := by
      rw [hblk_shape]
      simp only [List.length_append, hbsl, List.length_cons, List.length_nil]
    have hlp_mem : lpL ∈ ndindex (blk.shape.take axis) := by
      rw [hblk_shape, List.take_append_of_le_length (by omega),
        List.take_of_length_le (by omega), mem_ndindex]
      rw [hlpL, hbpL, hP]
      exact locate_locals_mem hgp_sum
    rw [← htgb]
    rw [impl_get_slice blk (sgb.sliceRoi roi) tgb res sn dn' axis hblk_len
      lpL hlp_mem [li, lj]]
    have hsl : (blk.slice lpL).shape =
        [roi.y1 - roi.y0, roi.x1 - roi.x0] := by
      show blk.shape.drop lpL.length = _
      rw [hlpllen, hblk_shape, List.drop_left' hbsl]
    have hrio : rio_reproject (blk.slice lpL) (sgb.sliceRoi roi) tgb res
        sn dn' = ⟨[tgb.ny, tgb.nx], fun ix =>
          nearestAt (blk.slice lpL) (sgb.sliceRoi roi) tgb dn'
            (ix.getD 0 0) (ix.getD 1 0)⟩ := by
      unfold rio_reproject
      rw [hsl]
    rw [hrio]
    show nearestAt (blk.slice lpL) (sgb.sliceRoi roi) tgb dn' li lj = _
    have hroi_eq : roi = (compute_reproject_roi sgb tgb).roi_src := by
      rw [hroi, htgb]
      rfl
    rw [hroi_eq, nearestAt_sliceRoi (blk.slice lpL) sgb tgb dn' hsry hsrx
      hdry' hdrx' li lj hli_lt hlj_lt si sj hsi_tile hsj_tile, ← hroi_eq]
    by_cases hcond : 0 ≤ si ∧ si < (sgb.ny : ℤ) ∧ 0 ≤ sj ∧ sj < (sgb.nx : ℤ)
    · rw [if_pos hcond, if_pos hcond]
      have hy0le : ((roi.y0 : ℤ)) ≤ si := by
        rw [hroi_eq]
        exact (covery.1 hcond.1 hcond.2.1).1
      have hx0le : ((roi.x0 : ℤ)) ≤ sj := by
        rw [hroi_eq]
        exact (coverx.1 hcond.2.2.1 hcond.2.2.2).1
      show blk.get (lpL ++ [(si - ((roi.y0 : ℤ))).toNat,
        (sj - ((roi.x0 : ℤ))).toNat]) = _
      rw [hblk, crop_getBlock_get src roi axis hlen bpL lpL hbpllen hlpllen
        (si - ((roi.y0 : ℤ))).toNat (sj - ((roi.x0 : ℤ))).toNat]
      have hE : List.zipWith
          (fun (pz : List Nat × Nat) l => (pz.1.take pz.2).sum + l)
          ((src.chunks.take axis).zip bpL) lpL = gp := by
        rw [← hP, hbpL, hlpL]
        exact locate_roundtrip hgp_sum
      have hyN : roi.y0 + (si - ((roi.y0 : ℤ))).toNat = si.toNat := by
        omega
      have hxN : roi.x0 + (sj - ((roi.x0 : ℤ))).toNat = sj.toNat := by
        omega
      rw [hE, hyN, hxN]
    · rw [if_neg hcond, if_neg hcond]

/-- The destination shape of a successful call, directly from the
returned structure: prefix axes, then the destination pixel shape, then
the (empty) suffix axes. -/
theorem dask_reproject_shape (src : DaskArray) (sgb dgb : GeoBox)
    (res : String) (chunks : Option (Nat × Nat)) (sn dn : Option ℤ)
    (axis : Nat) (nm : String) (tk : Nat) (r : ReprojResult)
    (hs : (src.shape.drop axis).take 2 = sgb.shape)
    (ht : src.chunks.drop (axis + 2) = [])
    (hr : dask_reproject src sgb dgb res chunks sn dn axis nm tk = .ok r) :
    r.shape = src.shape.take axis ++ [dgb.ny, dgb.nx] ++
      src.shape.drop (axis + 2) := by
  have hlen := chunks_len_of_valid hs ht
  rw [dask_reproject_ok src sgb dgb res chunks sn dn axis nm tk hs ht] at hr
  obtain rfl := Except.ok.inj hr
  obtain ⟨cy, cx, hcc⟩ : ∃ cy cx, resolvedChunks src chunks axis = [cy, cx] :=
    ⟨_, _, resolvedChunks_eq_pair (by omega)⟩
  rw [hcc, reprojectGraph_eq src sgb dgb res cy cx sn _ axis nm tk (by omega)]

/-- When the destination GeoBox is the source GeoBox itself, the
nearest-neighbour reference semantics is the identity on pixels: each
destination pixel centre falls inside exactly the source pixel with the
same index. -/
theorem globalNearest_self (src : DaskArray) (sgb : GeoBox) (dn : Option ℤ)
    (axis : Nat) (g : List Nat)
    (hsry : sgb.ry ≠ 0) (hsrx : sgb.rx ≠ 0)
    (hglen : g.length = axis + 2)
    (hgi : g.getD axis 0 < sgb.ny) (hgj : g.getD (axis + 1) 0 < sgb.nx) :
    globalNearest src sgb sgb dn axis g = src.val g := by
  have key : ∀ (t q : ℚ), q ≠ 0 → ∀ (k : Nat),
      ⌊(t + ((k : ℚ) + 1/2) * q - t) / q⌋ = (k : ℤ) := by
    intro t q hq k
    have h1 : (t + ((k : ℚ) + 1/2) * q - t) / q = (k : ℚ) + 1/2 := by
      rw [show t + ((k : ℚ) + 1/2) * q - t = ((k : ℚ) + 1/2) * q from by ring,
        mul_div_cancel_right₀ _ hq]
    rw [h1, show ((k : ℚ) + 1/2) = ((k : ℤ) : ℚ) + 1/2 from by push_cast; ring,
      Int.floor_int_add]
    norm_num
  simp only [globalNearest]
  rw [key sgb.ty sgb.ry hsry (g.getD axis 0),
    key sgb.tx sgb.rx hsrx (g.getD (axis + 1) 0),
    if_pos ⟨Int.natCast_nonneg _, by exact_mod_cast hgi,
      Int.natCast_nonneg _, by exact_mod_cast hgj⟩,
    Int.toNat_natCast, Int.toNat_natCast, ← eq_take_append_pair hglen]

/-- CLAIM C6: for every valid input (matching source extent, no trailing
axes, nonzero resolutions) and every pair of output chunk-size
arguments, the two arrays returned by `dask_reproject` have the same
destination shape and the same materialised pixel value at every
in-range global index — only the blocking differs. -/
theorem dask_reproject_chunk_invariance
    (src : DaskArray) (sgb dgb : GeoBox) (res : String)
    (chunks1 chunks2 : Option (Nat × Nat)) (sn dn : Option ℤ) (axis : Nat)
    (nm : String) (tk : Nat) (r1 r2 : ReprojResult)
    (hs : (src.shape.drop axis).take 2 = sgb.shape)
    (ht : src.chunks.drop (axis + 2) = [])
    (hsry : sgb.ry ≠ 0) (hsrx : sgb.rx ≠ 0)
    (hdry : dgb.ry ≠ 0) (hdrx : dgb.rx ≠ 0)
    (hr1 : dask_reproject src sgb dgb res chunks1 sn dn axis nm tk = .ok r1)
    (hr2 : dask_reproject src sgb dgb res chunks2 sn dn axis nm tk = .ok r2) :
    r1.shape = r2.shape ∧
    ∀ g, List.Forall₂ (· < ·) g r1.shape → r1.valAt g = r2.valAt g := by
  have hsh1 := dask_reproject_shape src sgb dgb res chunks1 sn dn axis nm tk
    r1 hs ht hr1
  have hsh2 := dask_reproject_shape src sgb dgb res chunks2 sn dn axis nm tk
    r2 hs ht hr2
  refine ⟨by rw [hsh1, hsh2], ?_⟩
  intro g hg
  rw [valAt_eq_globalNearest src sgb dgb res chunks1 sn dn axis nm tk r1
      hs ht hsry hsrx hdry hdrx hr1 g hg,
    valAt_eq_globalNearest src sgb dgb res chunks2 sn dn axis nm tk r2
      hs ht hsry hsrx hdry hdrx hr2 g (by rw [hsh2, ← hsh1]; exact hg)]

theorem dask_reproject_chunk_invariance_witness :
    ∃ r1 r2,
      dask_reproject srcW gW gW "nearest" (some (1, 2)) none none 0
        "reproject" 0 = .ok r1 ∧
      dask_reproject srcW gW gW "nearest" none none none 0
        "reproject" 0 = .ok r2 ∧
      r1.shape = r2.shape ∧
      ∀ g, List.Forall₂ (· < ·) g r1.shape → r1.valAt g = r2.valAt g := by
  have hr1 := dask_reproject_ok srcW gW gW "nearest" (some (1, 2)) none none
    0 "reproject" 0 (by decide) rfl
  have hr2 := dask_reproject_ok srcW gW gW "nearest" none none none
    0 "reproject" 0 (by decide) rfl
  obtain ⟨hsh, hval⟩ := dask_reproject_chunk_invariance srcW gW gW "nearest"
    (some (1, 2)) none none none 0 "reproject" 0 _ _ (by decide) rfl
    (by simp [gW]) (by simp [gW]) (by simp [gW]) (by simp [gW]) hr1 hr2
  exact ⟨_, _, hr1, hr2, hsh, hval⟩

/-- CLAIM C7: when the destination GeoBox is identical to the source
GeoBox and the strategy is `nearest`, the returned array has the
source's shape and is pixel-identical to the input at every in-range
global index. -/
theorem dask_reproject_identity_roundtrip
    (src : DaskArray) (sgb : GeoBox) (chunks : Option (Nat × Nat))
    (sn dn : Option ℤ) (axis : Nat) (nm : String) (tk : Nat)
    (r : ReprojResult)
    (hs : (src.shape.drop axis).take 2 = sgb.shape)
    (ht : src.chunks.drop (axis + 2) = [])
    (hsry : sgb.ry ≠ 0) (hsrx : sgb.rx ≠ 0)
    (hr : dask_reproject src sgb sgb "nearest" chunks sn dn axis nm tk =
      .ok r) :
    r.shape = src.shape ∧
    ∀ g, List.Forall₂ (· < ·) g src.shape → r.valAt g = src.val g := by
  have hlen := chunks_len_of_valid hs ht
  have hsdrop : src.shape.drop (axis + 2) = [] := by
    show (src.chunks.map List.sum).drop (axis + 2) = []
    rw [← List.map_drop, ht]
    rfl
  have hs2 : (src.shape.drop axis).take 2 = [sgb.ny, sgb.nx] := hs
  have hdd : (src.shape.drop axis).drop 2 = src.shape.drop (axis + 2) := by
    rw [List.drop_drop, Nat.add_comm]
  have hsrc_shape : src.shape = src.shape.take axis ++ [sgb.ny, sgb.nx] := by
    conv_lhs => rw [← List.take_append_drop axis src.shape,
      ← List.take_append_drop 2 (src.shape.drop axis)]
    rw [hs2, hdd, hsdrop, List.append_nil]
  have hshape_r := dask_reproject_shape src sgb sgb "nearest" chunks sn dn
    axis nm tk r hs ht hr
  have htl : (src.shape.take axis).length = axis := by
    have h3 : src.shape.length = axis + 2 := by
      show (src.chunks.map List.sum).length = axis + 2
      rw [List.length_map, hlen]
    simp only [List.length_take]
    omega
  refine ⟨by rw [hshape_r, hsdrop, List.append_nil, ← hsrc_shape], ?_⟩
  intro g hgS
  have hg : List.Forall₂ (· < ·) g r.shape := by
    rw [hshape_r, hsdrop, List.append_nil, ← hsrc_shape]
    exact hgS
  rw [valAt_eq_globalNearest src sgb sgb "nearest" chunks sn dn axis nm tk
    r hs ht hsry hsrx hsry hsrx hr g hg]
  have hglen : g.length = axis + 2 := by
    have h1 := hgS.length_eq
    rw [hsrc_shape] at h1
    simp only [List.length_append, htl, List.length_cons,
      List.length_nil] at h1
    omega
  have hdrp := List.forall₂_drop_append g (src.shape.take axis)
    [sgb.ny, sgb.nx] (by rw [← hsrc_shape]; exact hgS)
  rw [htl] at hdrp
  have hgd : g.drop axis = [g.getD axis 0, g.getD (axis + 1) 0] := by
    conv_lhs => rw [eq_take_append_pair hglen]
    rw [List.drop_left' (by simp only [List.length_take]; omega)]
  rw [hgd] at hdrp
  have hgi : g.getD axis 0 < sgb.ny := by
    rcases hdrp with _ | ⟨h1, -⟩
    exact h1
  have hgj : g.getD (axis + 1) 0 < sgb.nx := by
    rcases hdrp with _ | ⟨-, h2⟩
    rcases h2 with _ | ⟨h2, -⟩
    exact h2
  exact globalNearest_self src sgb _ axis g hsry hsrx hglen hgi hgj

theorem dask_reproject_identity_roundtrip_witness :
    ∃ r, dask_reproject srcW gW gW "nearest" none none none 0
      "reproject" 0 = .ok r ∧
    r.shape = srcW.shape ∧
    ∀ g, List.Forall₂ (· < ·) g srcW.shape → r.valAt g = srcW.val g := by
  have hr := dask_reproject_ok srcW gW gW "nearest" none none none 0
    "reproject" 0 (by decide) rfl
  exact ⟨_, hr, dask_reproject_identity_roundtrip srcW gW none none none 0
    "reproject" 0 _ (by decide) rfl (by simp [gW]) (by simp [gW]) hr⟩

/-- CLAIM C10: `xr_reproject_array` resolves the destination nodata as
the explicit `dst_nodata` argument or, when that is unset, the source's
`nodata` attribute; the returned DataArray carries a `nodata` attribute
exactly when this resolved value is set, and no attributes otherwise. -/
theorem xr_reproject_array_nodata_attr
    (src : XrDataArray) (geobox : GeoBox) (resampling : String)
    (chunks : Option (Nat × Nat)) (dst_nodata : Option ℤ) (token : Nat)
    (out : XrDataArray)
    (hok : xr_reproject_array src geobox resampling chunks dst_nodata
      token = .ok out) :
    out.attrs = match dst_nodata.orElse (fun _ => src.nodata) with
      | some v => [("nodata", v)]
      | none => [] := by
  simp only [xr_reproject_array] at hok
  split at hok
  · simp at hok
  · split at hok
    · simp at hok
    · split at hok
      · simp at hok
      · obtain rfl := Except.ok.inj hok
        rfl

/-- A concrete dask-backed DataArray for the xarray layer: projected
`(y, x)` dimensions and a `nodata` attribute of `5`. -/
def xrW : XrDataArray :=
  ⟨srcW, some "a", ["y", "x"], ["y", "x"], [("nodata", 5)], some gW⟩

theorem xr_reproject_array_nodata_attr_witness :
    ∃ out, xr_reproject_array xrW gW "nearest" none none 3 = .ok out ∧
      out.attrs = [("nodata", 5)] := by
  have hdr := dask_reproject_ok srcW gW gW "nearest" none (some 5) (some 5)
    0 "reproject" 3 (by decide) rfl
  have hstep : xr_reproject_array xrW gW "nearest" none none 3 =
      match dask_reproject srcW gW gW "nearest" none (some 5) (some 5) 0
          "reproject" 3 with
      | .error e => .error e
      | .ok r => .ok { data := { name := r.name, chunks := r.chunks,
                                 dtype := r.dtype, val := r.valAt },
                       xname := some "a", dims := ["y", "x"],
                       coords := ["y", "x", "spatial_ref"],
                       attrs := [("nodata", 5)],
                       geoboxOpt := some gW } := rfl
  rw [hstep, hdr]
  refine ⟨_, rfl, ?_⟩
  exact xr_reproject_array_nodata_attr xrW gW "nearest" none none 3 _
    (by rw [hstep, hdr])

end Warp
